import Mathlib

/-!
Verification development for the hedge-labs fund arena core:
the portfolio constraint repair engine (`scripts/fund_runner.mjs`) and the
segment-linked NAV calculators (`scripts/compute_daily_nav.mjs` and the
since-added performance script).

Numeric model: JavaScript numbers are modelled by exact rationals (`ℚ`);
`Number(x.toFixed(2))` is modelled by `round2` (round half towards +∞ at the
second decimal, as specified by ECMA `toFixed`).  String comparison (`<` on
ISO dates, `localeCompare` tie-breaks) is modelled by lexicographic
comparison of the underlying character sequences.
-/

set_option allowUnsafeReducibility true in
attribute [semireducible] Rat.add Rat.sub Rat.mul Rat.div Rat.inv Rat.ofScientific

set_option maxRecDepth 100000

namespace HedgeLabs

/-- Lexicographic `≤` on character lists, by code point; models JavaScript
string comparison for the ASCII tickers and ISO dates used by the scripts. -/
def lexLe : List Char → List Char → Bool
  | [], _ => true
  | _ :: _, [] => false
  | a :: as, b :: bs =>
    if a.toNat < b.toNat then true
    else if b.toNat < a.toNat then false
    else lexLe as bs

/-- JavaScript `a <= b` on strings. -/
def strLe (a b : String) : Bool := lexLe a.data b.data

/-- JavaScript `a < b` on strings. -/
def strLt (a b : String) : Bool := !(lexLe b.data a.data)

/-- Model of `Number(value.toFixed(2))`: round to the nearest multiple of
1/100, ties towards +∞ (ECMA-262 `toFixed` picks the larger candidate). -/
def round2 (value : ℚ) : ℚ := (round (value * 100) : ℤ) / 100

/-- A rational is a two-decimal value (an integer number of hundredths). -/
def TwoDp (x : ℚ) : Prop := ∃ k : ℤ, x * 100 = (k : ℚ)

/-- One holding of a portfolio: `{ticker, weight_pct, sector}`. -/
structure Holding where
  ticker : String
  weight_pct : ℚ
  sector : String
deriving DecidableEq

/-- The cap configuration parsed from the prompt in `fund_runner.mjs`
(`context.positions`, `context.maxPositionPct`, `context.maxSectorPct`).
The script parses no minimum-position bound. -/
structure RepairContext where
  positions : ℕ
  maxPositionPct : ℚ
  maxSectorPct : ℚ
deriving DecidableEq

/-- Sum of the weights of a portfolio. -/
def totalWeight (portfolio : List Holding) : ℚ :=
  (portfolio.map (·.weight_pct)).sum

/-- Weight collected in one sector; models a lookup in the map built by
`getSectorSums`. -/
def sectorSum (portfolio : List Holding) (sector : String) : ℚ :=
  ((portfolio.filter (fun h => h.sector = sector)).map (·.weight_pct)).sum

/-- Number of holdings in one sector; models a lookup in the map built at the
top of `computeFeasibleCapacity`. -/
def sectorCount (portfolio : List Holding) (sector : String) : ℕ :=
  (portfolio.filter (fun h => h.sector = sector)).length

/-- First-occurrence list of the distinct sectors of a portfolio: the key set,
in insertion order, of the maps built by `getSectorSums` /
`computeFeasibleCapacity`. -/
def dedupStrings : List String → List String → List String
  | _, [] => []
  | seen, s :: rest =>
    if s ∈ seen then dedupStrings seen rest
    else s :: dedupStrings (s :: seen) rest

/-- The distinct sectors of a portfolio, in first-occurrence order. -/
def sectorList (portfolio : List Holding) : List String :=
  dedupStrings [] (portfolio.map (·.sector))

/-- Model of `sectorMaxWeight`: the largest per-sector weight sum, starting
from 0, rounded to two decimals. -/
def sectorMaxWeight (portfolio : List Holding) : ℚ :=
  round2 ((sectorList portfolio).foldl (fun m s => max m (sectorSum portfolio s)) 0)

/-- Model of `Math.max(...portfolio.map(item => item.weight_pct))` for a
non-empty portfolio (the only way the script calls it). -/
def maxWeight : List Holding → ℚ
  | [] => 0
  | h :: rest => rest.foldl (fun m x => max m x.weight_pct) h.weight_pct

/-- Merge one holding into the accumulated `byTicker` map (kept as a list in
insertion order): first occurrence inserts a copy, later occurrences add
their weight and may replace an `UNKNOWN` sector. -/
def mergeInto : List Holding → Holding → List Holding
  | [], item => [item]
  | existing :: rest, item =>
    if existing.ticker = item.ticker then
      { existing with
          weight_pct := existing.weight_pct + item.weight_pct,
          sector :=
            if existing.sector = "UNKNOWN" ∧ item.sector ≠ "UNKNOWN" then item.sector
            else existing.sector } :: rest
    else existing :: mergeInto rest item

/-- The deduplication loop of `enforcePortfolioConstraints` (lines building
`byTicker`): merge duplicate tickers, keeping insertion order. -/
def dedupeByTicker (portfolio : List Holding) : List Holding :=
  portfolio.foldl mergeInto []

/-- The trim comparator of `enforcePortfolioConstraints` and of the negative
branch of `finalizeRoundedWeights`: weight descending, then ticker
ascending. -/
def holdDesc (a b : Holding) : Prop :=
  b.weight_pct < a.weight_pct ∨ (a.weight_pct = b.weight_pct ∧ strLe a.ticker b.ticker = true)

/-- The comparator of the positive branch of `finalizeRoundedWeights`:
weight ascending, then ticker ascending. -/
def holdAsc (a b : Holding) : Prop :=
  a.weight_pct < b.weight_pct ∨ (a.weight_pct = b.weight_pct ∧ strLe a.ticker b.ticker = true)

instance : DecidableRel holdDesc := fun _ _ => instDecidableOr

instance : DecidableRel holdAsc := fun _ _ => instDecidableOr

/-- The top-N trim of `enforcePortfolioConstraints`: when more holdings than
`positions` survive deduplication, sort by weight descending (ticker
ascending tie-break) and keep the first `positions`. -/
def trimToTop (portfolio : List Holding) (positions : ℕ) : List Holding :=
  if positions < portfolio.length then
    (List.insertionSort holdDesc portfolio).take positions
  else portfolio

/-- Model of `normalizeWeightsTo100` in the case `total > 0` (the caller
falls back before applying it otherwise): scale every weight by
`100 / total`. -/
def normalizeWeightsTo100 (portfolio : List Holding) : List Holding :=
  let total := totalWeight portfolio
  portfolio.map (fun h => { h with weight_pct := h.weight_pct * 100 / total })

/-- Model of `computeFeasibleCapacity`: per sector, contribute
`min(count * maxPositionPct, maxSectorPct)` and sum over sectors. -/
def computeFeasibleCapacity (portfolio : List Holding) (maxPositionPct maxSectorPct : ℚ) : ℚ :=
  ((sectorList portfolio).map
    (fun s => min ((sectorCount portfolio s : ℚ) * maxPositionPct) maxSectorPct)).sum

/-- The clipping pass of `enforcePortfolioConstraints`: cap every weight at
`maxPositionPct`, returning the clipped portfolio and the accumulated
excess. -/
def clipToMax (portfolio : List Holding) (maxPositionPct : ℚ) : List Holding × ℚ :=
  (portfolio.map (fun h =>
      if maxPositionPct < h.weight_pct then { h with weight_pct := maxPositionPct } else h),
   (portfolio.map (fun h =>
      if maxPositionPct < h.weight_pct then h.weight_pct - maxPositionPct else 0)).sum)

/-- The sector-scaling pass of `enforcePortfolioConstraints`: every sector
whose pre-pass sum exceeds `maxSectorPct + 1e-9` is scaled down by
`maxSectorPct / sum`; the removed weight is accumulated as excess.  The
sector sums are computed once, before any scaling, as in the script. -/
def scaleSectors (portfolio : List Holding) (maxSectorPct : ℚ) : List Holding × ℚ :=
  (portfolio.map (fun h =>
      if maxSectorPct + 1 / 1000000000 < sectorSum portfolio h.sector then
        { h with weight_pct := h.weight_pct * (maxSectorPct / sectorSum portfolio h.sector) }
      else h),
   (portfolio.map (fun h =>
      if maxSectorPct + 1 / 1000000000 < sectorSum portfolio h.sector then
        h.weight_pct - h.weight_pct * (maxSectorPct / sectorSum portfolio h.sector)
      else 0)).sum)

/-- One round of `redistributeWithinCaps`: per-holding room under both caps,
proportional distribution of `min(remaining, totalCapacity)`. -/
def redistributeRound (portfolio : List Holding) (remaining maxPositionPct maxSectorPct : ℚ) :
    List Holding × ℚ :=
  let capacities := portfolio.map (fun h =>
    min (max 0 (maxPositionPct - h.weight_pct)) (max 0 (maxSectorPct - sectorSum portfolio h.sector)))
  let totalCapacity := capacities.sum
  if totalCapacity ≤ 1 / 1000000000 then (portfolio, remaining)
  else
    let delta := min remaining totalCapacity
    (List.zipWith
      (fun h cap => if cap ≤ 0 then h
                    else { h with weight_pct := h.weight_pct + delta * cap / totalCapacity })
      portfolio capacities,
     remaining - delta)

/-- The bounded loop of `redistributeWithinCaps`
(`for (iter = 0; iter < 80 && remaining > 1e-6; ...)`), with the iteration
budget as explicit fuel. -/
def redistributeGo (maxPositionPct maxSectorPct : ℚ) :
    ℕ → List Holding → ℚ → List Holding × ℚ
  | 0, portfolio, remaining => (portfolio, remaining)
  | fuel + 1, portfolio, remaining =>
    if remaining ≤ 1 / 1000000 then (portfolio, remaining)
    else
      let capacities := portfolio.map (fun h =>
        min (max 0 (maxPositionPct - h.weight_pct))
            (max 0 (maxSectorPct - sectorSum portfolio h.sector)))
      let totalCapacity := capacities.sum
      if totalCapacity ≤ 1 / 1000000000 then (portfolio, remaining)
      else
        let delta := min remaining totalCapacity
        redistributeGo maxPositionPct maxSectorPct fuel
          (List.zipWith
            (fun h cap => if cap ≤ 0 then h
                          else { h with weight_pct := h.weight_pct + delta * cap / totalCapacity })
            portfolio capacities)
          (remaining - delta)

/-- Model of `redistributeWithinCaps`: at most 80 rounds, tolerance 1e-6. -/
def redistributeWithinCaps (portfolio : List Holding) (amount maxPositionPct maxSectorPct : ℚ) :
    List Holding × ℚ :=
  redistributeGo maxPositionPct maxSectorPct 80 portfolio amount

/-- Set the weight of the first holding with the given ticker (the script
mutates a single shared object; tickers are unique at every call site). -/
def setWeightFirst : List Holding → String → ℚ → List Holding
  | [], _, _ => []
  | h :: rest, t, w =>
    if h.ticker = t then { h with weight_pct := w } :: rest
    else h :: setWeightFirst rest t w

/-- The over-100 trim loop of `enforcePortfolioConstraints`: walk the
holdings sorted by weight descending (ticker ascending tie-break) and cut
`min(weight, toTrim)` from each until `toTrim ≤ 1e-6`. -/
def applyTrim : List Holding → ℚ → List Holding → List Holding
  | portfolio, _, [] => portfolio
  | portfolio, toTrim, c :: rest =>
    if toTrim ≤ 1 / 1000000 then portfolio
    else
      let cut := min c.weight_pct toTrim
      applyTrim (setWeightFirst portfolio c.ticker (c.weight_pct - cut)) (toTrim - cut) rest

/-- The residual-reconciliation loop of `finalizeRoundedWeights`
(`for (iter = 0; iter < 500 && Math.abs(residual) >= 0.01; ...)`), with the
iteration budget as explicit fuel.  Positive residual: nudge +0.01 on the
least-weight holding with headroom under both caps; negative residual:
nudge -0.01 on the greatest-weight holding with at least 0.01. -/
def finalizeGo (maxPositionPct maxSectorPct : ℚ) : ℕ → List Holding → ℚ → List Holding
  | 0, portfolio, _ => portfolio
  | fuel + 1, portfolio, residual =>
    if |residual| < 1 / 100 then portfolio
    else if 0 < residual then
      match (List.insertionSort holdAsc portfolio).find? (fun h =>
          decide (h.weight_pct + 1 / 100 ≤ maxPositionPct) &&
          decide (sectorSum portfolio h.sector + 1 / 100 ≤ maxSectorPct)) with
      | none => portfolio
      | some c =>
        finalizeGo maxPositionPct maxSectorPct fuel
          (setWeightFirst portfolio c.ticker (round2 (c.weight_pct + 1 / 100)))
          (round2 (residual - 1 / 100))
    else
      match (List.insertionSort holdDesc portfolio).find? (fun h =>
          decide (1 / 100 ≤ h.weight_pct)) with
      | none => portfolio
      | some c =>
        finalizeGo maxPositionPct maxSectorPct fuel
          (setWeightFirst portfolio c.ticker (round2 (c.weight_pct - 1 / 100)))
          (round2 (residual + 1 / 100))

/-- Model of `finalizeRoundedWeights`: round every weight (clamped at 0) to
two decimals, then reconcile the rounding residual in ±0.01 steps, at most
500 iterations. -/
def finalizeRoundedWeights (portfolio : List Holding) (maxPositionPct maxSectorPct : ℚ) :
    List Holding :=
  let rounded := portfolio.map (fun h => { h with weight_pct := round2 (max 0 h.weight_pct) })
  let residual := round2 (100 - totalWeight rounded)
  if |residual| < 1 / 100 then rounded
  else finalizeGo maxPositionPct maxSectorPct 500 rounded residual

/-- The fixed reference universe of `buildPortfolio`. -/
def referenceUniverse : List (String × String) :=
  [("MSFT", "Technology"), ("JNJ", "Healthcare"), ("XOM", "Energy"),
   ("JPM", "Financials"), ("COST", "Consumer Staples"), ("GE", "Industrials"),
   ("NEE", "Utilities"), ("AMT", "Real Estate"), ("LIN", "Materials"),
   ("GOOGL", "Communication Services"), ("AMZN", "Consumer Discretionary"),
   ("TSM", "Technology"), ("PG", "Consumer Staples"), ("UNH", "Healthcare"),
   ("V", "Financials"), ("AAPL", "Technology")]

/-- Model of `buildPortfolio`: capped equal weights over the reference
universe, any positive rounding remainder added to the first holding. -/
def buildPortfolio (positions : ℕ) (maxPositionPct : ℚ) : List Holding :=
  let n := max 1 positions
  let selected := (List.range n).map
    (fun i => referenceUniverse.getD (i % referenceUniverse.length) ("", ""))
  let equalWeight := round2 (100 / (n : ℚ))
  let cappedWeight := min equalWeight maxPositionPct
  let base := selected.map (fun ts =>
    { ticker := ts.1, weight_pct := round2 cappedWeight, sector := ts.2 })
  let remainder := round2 (100 - totalWeight base)
  match base with
  | [] => []
  | h :: rest =>
    if 0 < remainder then { h with weight_pct := round2 (h.weight_pct + remainder) } :: rest
    else h :: rest

/-- Structured reason of a repair fallback, as encoded in the
`repair_fallback=...` note pushed by `enforcePortfolioConstraints`. -/
inductive FallbackReason
  | emptyOrInvalidPortfolio
  | infeasibleSectorCapacity (capacityPct : ℚ)
  | postRepairConstraintsFailed (maxPositionObserved maxSectorObserved : ℚ)
deriving DecidableEq

/-- Ordinary repair notes pushed by `enforcePortfolioConstraints`. -/
inductive RepairNote
  | trimmedToTopPositions (n : ℕ)
  | unallocatedAfterCaps (pct : ℚ)
  | finalUnallocated (pct : ℚ)
deriving DecidableEq

/-- The result object of `enforcePortfolioConstraints`
(`{portfolio, repaired, repairNotes}`), with the fallback reason separated
from the ordinary notes. -/
structure RepairResult where
  portfolio : List Holding
  repaired : Bool
  fallbackReason : Option FallbackReason
  notes : List RepairNote
deriving DecidableEq

/-- The total-fixing step of `enforcePortfolioConstraints`: refill a
shortfall through `redistributeWithinCaps`, or trim an overshoot from the
largest holdings. -/
def adjustTotal (p : List Holding) (ctx : RepairContext) : List Holding :=
  let currentTotal := totalWeight p
  if currentTotal < 100 - 1 / 1000000 then
    (redistributeWithinCaps p (100 - currentTotal) ctx.maxPositionPct ctx.maxSectorPct).1
  else if 100 + 1 / 1000000 < currentTotal then
    applyTrim p (currentTotal - 100) (List.insertionSort holdDesc p)
  else p

/-- The note possibly pushed by the refill branch of the total-fixing step. -/
def adjustNotes (p : List Holding) (ctx : RepairContext) : List RepairNote :=
  let currentTotal := totalWeight p
  if currentTotal < 100 - 1 / 1000000 then
    if 1 / 20 <
        (redistributeWithinCaps p (100 - currentTotal) ctx.maxPositionPct ctx.maxSectorPct).2 then
      [.finalUnallocated (round2
        (redistributeWithinCaps p (100 - currentTotal) ctx.maxPositionPct ctx.maxSectorPct).2)]
    else []
  else []

/-- The repair pipeline between the feasibility check and the final
validation: clip per-position, scale over-cap sectors, redistribute the
excess, fix the total towards 100, round and reconcile. -/
def repairBody (p0 : List Holding) (ctx : RepairContext) :
    List Holding × List RepairNote :=
  let clipped := clipToMax p0 ctx.maxPositionPct
  let scaled := scaleSectors clipped.1 ctx.maxSectorPct
  let excess := clipped.2 + scaled.2
  let redistributed := redistributeWithinCaps scaled.1 excess ctx.maxPositionPct ctx.maxSectorPct
  let notes1 : List RepairNote :=
    if 1 / 20 < redistributed.2 then [.unallocatedAfterCaps (round2 redistributed.2)] else []
  (finalizeRoundedWeights (adjustTotal redistributed.1 ctx) ctx.maxPositionPct ctx.maxSectorPct,
   notes1 ++ adjustNotes redistributed.1 ctx)

/-- Model of `enforcePortfolioConstraints`: deduplicate, trim to the top
`positions`, validate non-emptiness and positive total, check sector
capacity, repair, and validate the position/sector caps of the result;
every failure substitutes the `buildPortfolio` fallback with a structured
reason. -/
def enforcePortfolioConstraints (initialPortfolio : List Holding) (ctx : RepairContext) :
    RepairResult :=
  let deduped := dedupeByTicker initialPortfolio
  let trimmed := trimToTop deduped ctx.positions
  let notes : List RepairNote :=
    if ctx.positions < deduped.length then [.trimmedToTopPositions ctx.positions] else []
  if trimmed.isEmpty ∨ totalWeight trimmed ≤ 0 then
    { portfolio := buildPortfolio ctx.positions ctx.maxPositionPct,
      repaired := true,
      fallbackReason := some .emptyOrInvalidPortfolio,
      notes := [] }
  else
    let p0 := normalizeWeightsTo100 trimmed
    let feasibleCapacity := computeFeasibleCapacity p0 ctx.maxPositionPct ctx.maxSectorPct
    if feasibleCapacity + 1 / 1000000 < 100 then
      { portfolio := buildPortfolio ctx.positions ctx.maxPositionPct,
        repaired := true,
        fallbackReason := some (.infeasibleSectorCapacity (round2 feasibleCapacity)),
        notes := [] }
    else
      let repairedPair := repairBody p0 ctx
      let finalNotes := notes ++ repairedPair.2
      let maxPositionObserved := round2 (maxWeight repairedPair.1)
      let maxSectorObserved := sectorMaxWeight repairedPair.1
      if maxPositionObserved ≤ ctx.maxPositionPct + 1 / 100 ∧
         maxSectorObserved ≤ ctx.maxSectorPct + 1 / 100 then
        { portfolio := repairedPair.1,
          repaired := !finalNotes.isEmpty,
          fallbackReason := none,
          notes := finalNotes }
      else
        { portfolio := buildPortfolio ctx.positions ctx.maxPositionPct,
          repaired := true,
          fallbackReason := some (.postRepairConstraintsFailed maxPositionObserved maxSectorObserved),
          notes := finalNotes }

/-- Instrumented variant of `redistributeGo` that also counts the executed
rounds. -/
def redistributeGoCount (maxPositionPct maxSectorPct : ℚ) :
    ℕ → List Holding → ℚ → (List Holding × ℚ) × ℕ
  | 0, portfolio, remaining => ((portfolio, remaining), 0)
  | fuel + 1, portfolio, remaining =>
    if remaining ≤ 1 / 1000000 then ((portfolio, remaining), 0)
    else
      let capacities := portfolio.map (fun h =>
        min (max 0 (maxPositionPct - h.weight_pct))
            (max 0 (maxSectorPct - sectorSum portfolio h.sector)))
      let totalCapacity := capacities.sum
      if totalCapacity ≤ 1 / 1000000000 then ((portfolio, remaining), 0)
      else
        let delta := min remaining totalCapacity
        let next := redistributeGoCount maxPositionPct maxSectorPct fuel
          (List.zipWith
            (fun h cap => if cap ≤ 0 then h
                          else { h with weight_pct := h.weight_pct + delta * cap / totalCapacity })
            portfolio capacities)
          (remaining - delta)
        (next.1, next.2 + 1)

/-- Instrumented variant of `finalizeGo` that also counts the executed
iterations. -/
def finalizeGoCount (maxPositionPct maxSectorPct : ℚ) :
    ℕ → List Holding → ℚ → List Holding × ℕ
  | 0, portfolio, _ => (portfolio, 0)
  | fuel + 1, portfolio, residual =>
    if |residual| < 1 / 100 then (portfolio, 0)
    else if 0 < residual then
      match (List.insertionSort holdAsc portfolio).find? (fun h =>
          decide (h.weight_pct + 1 / 100 ≤ maxPositionPct) &&
          decide (sectorSum portfolio h.sector + 1 / 100 ≤ maxSectorPct)) with
      | none => (portfolio, 0)
      | some c =>
        let next := finalizeGoCount maxPositionPct maxSectorPct fuel
          (setWeightFirst portfolio c.ticker (round2 (c.weight_pct + 1 / 100)))
          (round2 (residual - 1 / 100))
        (next.1, next.2 + 1)
    else
      match (List.insertionSort holdDesc portfolio).find? (fun h =>
          decide (1 / 100 ≤ h.weight_pct)) with
      | none => (portfolio, 0)
      | some c =>
        let next := finalizeGoCount maxPositionPct maxSectorPct fuel
          (setWeightFirst portfolio c.ticker (round2 (c.weight_pct - 1 / 100)))
          (round2 (residual + 1 / 100))
        (next.1, next.2 + 1)

/-! ### NAV calculators -/

/-- Value of a decimal digit sequence. -/
def digitsToNat (cs : List Char) : ℕ :=
  cs.foldl (fun a c => a * 10 + (c.toNat - 48)) 0

/-- Gregorian leap-year rule, as implemented by the JavaScript `Date`. -/
def isLeapYear (y : ℕ) : Bool :=
  y % 4 = 0 && (y % 100 ≠ 0 || y % 400 = 0)

/-- Length of a Gregorian month. -/
def daysInMonth (y m : ℕ) : ℕ :=
  if m = 2 then (if isLeapYear y then 29 else 28)
  else if m = 4 ∨ m = 6 ∨ m = 9 ∨ m = 11 then 30
  else 31

/-- Decimal digits of a number, zero-padded to a width. -/
def padDigits (width n : ℕ) : List Char :=
  let ds := Nat.toDigits 10 n
  List.replicate (width - ds.length) '0' ++ ds

/-- Render a calendar date as an ISO `YYYY-MM-DD` string. -/
def formatDate (y m d : ℕ) : String :=
  ⟨padDigits 4 y ++ '-' :: (padDigits 2 m ++ '-' :: padDigits 2 d)⟩

/-- Model of `dayBefore`: the calendar day immediately before an ISO date
(the script goes through the JavaScript `Date`; strings that are not ISO
dates never reach it and are returned unchanged here). -/
def dayBefore (dateStr : String) : String :=
  match dateStr.data with
  | [y1, y2, y3, y4, '-', m1, m2, '-', d1, d2] =>
    let y := digitsToNat [y1, y2, y3, y4]
    let m := digitsToNat [m1, m2]
    let d := digitsToNat [d1, d2]
    if 2 ≤ d then formatDate y m (d - 1)
    else if 2 ≤ m then formatDate y (m - 1) (daysInMonth y (m - 1))
    else formatDate (y - 1) 12 31
  | _ => dateStr

/-- One resolved price point `{date, close}`. -/
structure PricePoint where
  date : String
  close : ℚ
deriving DecidableEq

/-- A fetched chart: date-ordered closes for one symbol (`fetchYahooChart`
keeps only finite positive closes). -/
structure Chart where
  dates : List String
  closes : List ℚ
deriving DecidableEq

/-- The binary-search loop of `upperBound`, with the shrinking interval
width as explicit fuel (`fuel ≥ hi - lo` at every call). -/
def upperBoundGo (arr : List String) (target : String) :
    ℕ → ℕ → ℕ → ℕ
  | 0, lo, _ => lo
  | fuel + 1, lo, hi =>
    if lo < hi then
      if strLe (arr.getD ((lo + hi) / 2) "") target then
        upperBoundGo arr target fuel ((lo + hi) / 2 + 1) hi
      else upperBoundGo arr target fuel lo ((lo + hi) / 2)
    else lo

/-- Model of `upperBound`: index of the first element greater than `target`
in a sorted array. -/
def upperBound (arr : List String) (target : String) : ℕ :=
  upperBoundGo arr target arr.length 0 arr.length

/-- Model of `closeOnOrBefore`: binary-search the latest date on or before
`targetDate`; the close at that index must be a finite positive number
(a missing entry reads as the non-positive default). -/
def closeOnOrBefore (chart : Option Chart) (targetDate : String) : Option PricePoint :=
  match chart with
  | none => none
  | some c =>
    if c.dates.length = 0 then none
    else if upperBound c.dates targetDate = 0 then none
    else if 0 < c.closes.getD (upperBound c.dates targetDate - 1) 0 then
      some ⟨c.dates.getD (upperBound c.dates targetDate - 1) "",
            c.closes.getD (upperBound c.dates targetDate - 1) 0⟩
    else none

/-- Remove leading and trailing spaces (model of `String.prototype.trim` for
the ticker strings at hand). -/
def trimSpaces (s : String) : String :=
  ⟨((s.data.dropWhile (· = ' ')).reverse.dropWhile (· = ' ')).reverse⟩

/-- Model of `symbolAliases`: the ticker itself, then the dot↔hyphen
class-share respellings, first occurrence kept. -/
def symbolAliases (raw : String) : List String :=
  let t := trimSpaces raw
  if t = "" then []
  else
    let withDot :=
      if t.data.contains '.' then
        [t, ⟨t.data.map (fun c => if c = '.' then '-' else c)⟩]
      else [t]
    let withHyphen :=
      if t.data.contains '-' then
        withDot ++ [⟨t.data.map (fun c => if c = '-' then '.' else c)⟩]
      else withDot
    dedupStrings [] withHyphen

/-- One holding of a recorded snapshot (`{ticker, weight_pct}`). -/
structure NavHolding where
  ticker : String
  weight_pct : ℚ
deriving DecidableEq

/-- One successful run: a snapshot date with its portfolio. -/
structure Snapshot where
  date : String
  holdings : List NavHolding
deriving DecidableEq

/-- One chaining segment: the snapshot providing the holdings, and the end
date. -/
structure Segment where
  start : Snapshot
  endDate : String
deriving DecidableEq

/-- Consecutive-run segments (`segments.push({start: runs[i], endDate:
runs[i+1].date})`). -/
def consecSegments : List Snapshot → List Segment
  | [] => []
  | [_] => []
  | a :: b :: rest => ⟨a, b.date⟩ :: consecSegments (b :: rest)

/-- The segment-building block shared by `computeFundDaily` and the
since-added script: consecutive runs, a tail segment up to `runDate` when
the run date is past the last snapshot, and a single self-segment for a
lone snapshot evaluated on its own date. -/
def buildSegments (runsUpToDate : List Snapshot) (runDate : String) : List Segment :=
  match runsUpToDate.getLast? with
  | none => []
  | some last =>
    let segs := consecSegments runsUpToDate
    if strLt last.date runDate then segs ++ [⟨last, runDate⟩]
    else if segs.isEmpty then [⟨runsUpToDate.headD ⟨"", []⟩, runDate⟩]
    else segs

/-- The start boundaries used by the `computeFundDaily` segment loop
(`compute_daily_nav.mjs`, the `isFirstSegment` flag): the first segment
starts the day before its snapshot date, later segments start on their
snapshot date. -/
def dailySegList (segs : List Segment) : List (String × Segment) :=
  match segs with
  | [] => []
  | first :: rest =>
    (dayBefore first.start.date, first) :: rest.map (fun seg => (seg.start.date, seg))

/-- The start boundaries used by the since-added segment loop: every
segment, including the first, resolves its start prices at the snapshot
date itself. -/
def sinceAddedSegList (segs : List Segment) : List (String × Segment) :=
  segs.map (fun seg => (seg.start.date, seg))

/-- One leg entry of a segment: a holding whose start and end prices both
resolved. -/
structure LegItem where
  ticker : String
  weight : ℚ
  chart : Option Chart
  startCandidate : PricePoint
  endCandidate : PricePoint
deriving DecidableEq

/-- The leg-building loop of `computeFundDaily`: keep holdings whose prices
resolve at both boundary dates. -/
def dailyLeg (chartFor : String → Option Chart) (startDate : String) (seg : Segment) :
    List LegItem :=
  seg.start.holdings.filterMap (fun h =>
    match closeOnOrBefore (chartFor h.ticker) startDate,
          closeOnOrBefore (chartFor h.ticker) seg.endDate with
    | some sc, some ec => some ⟨h.ticker, h.weight_pct, chartFor h.ticker, sc, ec⟩
    | _, _ => none)

/-- The leg-building loop of the since-added script: it additionally skips
non-positive weights, and resolves the start price at the snapshot's own
date (`closeOnOrBefore(chart, seg.start.date)`). -/
def sinceAddedLeg (chartFor : String → Option Chart) (seg : Segment) : List LegItem :=
  seg.start.holdings.filterMap (fun (h : NavHolding) =>
    if h.weight_pct ≤ 0 then none
    else
      match closeOnOrBefore (chartFor h.ticker) seg.start.date,
            closeOnOrBefore (chartFor h.ticker) seg.endDate with
      | some sc, some ec => some ⟨h.ticker, h.weight_pct, chartFor h.ticker, sc, ec⟩
      | _, _ => none)

/-- Model of `array.sort()[0]` on date strings: the lexicographically
smallest. -/
def minDate (d : String) (rest : List String) : String :=
  rest.foldl (fun m x => if strLt x m then x else m) d

/-- The aligned price window of a segment: earliest resolved start and end
dates over the leg, pulled back by the benchmark's candidates when the
benchmark is still live, and collapsed when the window would be negative. -/
def alignedDates (leg : List LegItem) (benchOk : Bool)
    (benchStartCandidate benchEndCandidate : Option PricePoint) : String × String :=
  match leg with
  | [] => ("", "")
  | x :: xs =>
    let s0 := minDate x.startCandidate.date (xs.map (·.startCandidate.date))
    let e0 := minDate x.endCandidate.date (xs.map (·.endCandidate.date))
    let adjusted :=
      match benchOk, benchStartCandidate, benchEndCandidate with
      | true, some bs, some be =>
        ((if strLt bs.date s0 then bs.date else s0), (if strLt be.date e0 then be.date else e0))
      | _, _, _ => (s0, e0)
    if strLt adjusted.2 adjusted.1 then (adjusted.2, adjusted.2) else adjusted

/-- The coverage loop of a segment: re-resolve each leg holding at the
aligned dates; a holding contributes its weight to coverage and
`weight * return` to the weighted sum only when both resolve.  (In the
rational model the computed return is always finite, so the script's
`Number.isFinite` guard never fires.) -/
def legAggregate (leg : List LegItem) (alignedStart alignedEnd : String) : ℚ × ℚ :=
  leg.foldl (fun acc item =>
    match closeOnOrBefore item.chart alignedStart, closeOnOrBefore item.chart alignedEnd with
    | some s, some e =>
      (acc.1 + item.weight, acc.2 + item.weight * ((e.close / s.close - 1) * 100))
    | _, _ => acc) (0, 0)

/-- The benchmark update of a segment: once `benchOk` is false it stays
false; otherwise a failed resolution at either aligned date turns it off,
and a successful one compounds the benchmark NAV. -/
def benchUpdate (benchChart : Option Chart) (benchOk : Bool) (benchNav : ℚ)
    (alignedStart alignedEnd : String) : Bool × ℚ :=
  if benchOk then
    match closeOnOrBefore benchChart alignedStart, closeOnOrBefore benchChart alignedEnd with
    | some s, some e => (true, benchNav * (1 + ((e.close / s.close - 1) * 100) / 100))
    | _, _ => (false, benchNav)
  else (false, benchNav)

/-- Mutable state of the segment loop. -/
structure NavState where
  nav : ℚ
  benchNav : ℚ
  benchOk : Bool
  minCoverage : Option ℚ
  alignedAsOf : Option String
deriving DecidableEq

/-- Leg and aligned window of one segment of the `computeFundDaily` loop. -/
def dailySegData (chartFor : String → Option Chart) (benchChart : Option Chart)
    (st : NavState) (startDate : String) (seg : Segment) :
    List LegItem × String × String :=
  let leg := dailyLeg chartFor startDate seg
  let benchStartCandidate := closeOnOrBefore benchChart startDate
  let benchEndCandidate := closeOnOrBefore benchChart seg.endDate
  let aligned := alignedDates leg st.benchOk benchStartCandidate benchEndCandidate
  (leg, aligned)

/-- Covered weight of one segment of the `computeFundDaily` loop. -/
def dailyCovered (chartFor : String → Option Chart) (benchChart : Option Chart)
    (st : NavState) (startDate : String) (seg : Segment) : ℚ :=
  let data := dailySegData chartFor benchChart st startDate seg
  if data.1.isEmpty then 0 else (legAggregate data.1 data.2.1 data.2.2).1

/-- Weighted return sum of one segment of the `computeFundDaily` loop. -/
def dailyWeighted (chartFor : String → Option Chart) (benchChart : Option Chart)
    (st : NavState) (startDate : String) (seg : Segment) : ℚ :=
  let data := dailySegData chartFor benchChart st startDate seg
  if data.1.isEmpty then 0 else (legAggregate data.1 data.2.1 data.2.2).2

/-- One iteration of the `computeFundDaily` segment loop; `none` models the
`failed = true; break` outcome (empty leg or zero covered weight). -/
def dailySegStep (chartFor : String → Option Chart) (benchChart : Option Chart)
    (st : NavState) (startDate : String) (seg : Segment) : Option NavState :=
  let data := dailySegData chartFor benchChart st startDate seg
  match data.1 with
  | [] => none
  | _ =>
    let agg := legAggregate data.1 data.2.1 data.2.2
    let bench := benchUpdate benchChart st.benchOk st.benchNav data.2.1 data.2.2
    if agg.1 ≤ 0 then none
    else some
      { nav := st.nav * (1 + (agg.2 / agg.1) / 100),
        benchNav := bench.2,
        benchOk := bench.1,
        minCoverage := some (match st.minCoverage with
          | none => agg.1
          | some m => min m agg.1),
        alignedAsOf := some data.2.2 }

/-- The `computeFundDaily` segment loop over a list of (start boundary,
segment) pairs. -/
def dailyRunSegs (chartFor : String → Option Chart) (benchChart : Option Chart) :
    NavState → List (String × Segment) → Option NavState
  | st, [] => some st
  | st, (startDate, seg) :: rest =>
    match dailySegStep chartFor benchChart st startDate seg with
    | none => none
    | some st' => dailyRunSegs chartFor benchChart st' rest

/-- The per-date output record of `computeFundDaily`. -/
structure DailyPerf where
  fund_return_pct : ℚ
  benchmark_return_pct : Option ℚ
  excess_return_pct : Option ℚ
  asof_price_date : Option String
  covered_weight_pct : ℚ
deriving DecidableEq

/-- Model of `asPct` (`Number(value.toFixed(2))`). -/
def asPct (value : ℚ) : ℚ := round2 value

/-- Projection of the final loop state to the per-date record. -/
def dailyPerfOf (st : NavState) : DailyPerf :=
  let fundReturn := asPct ((st.nav / 100 - 1) * 100)
  let benchmarkReturn := if st.benchOk then some (asPct ((st.benchNav / 100 - 1) * 100)) else none
  { fund_return_pct := fundReturn,
    benchmark_return_pct := benchmarkReturn,
    excess_return_pct :=
      match benchmarkReturn with
      | some b => some (asPct (fundReturn - b))
      | none => none,
    asof_price_date := st.alignedAsOf,
    covered_weight_pct := asPct (st.minCoverage.getD 0) }

/-- Loop state at the top of each target date (`nav = 100`, `benchNav =
100`, `benchOk = Boolean(benchmarkTicker)`). -/
def initialNavState (benchmarkTicker : String) : NavState :=
  { nav := 100, benchNav := 100, benchOk := benchmarkTicker ≠ "",
    minCoverage := none, alignedAsOf := none }

/-- The body of `computeFundDaily` for a single target date: inception
guard, segment construction, segment loop, projection; `none` models a
skipped date (no entry in `results`). -/
def computeFundDailyOne (successfulRuns : List Snapshot)
    (chartFor : String → Option Chart) (benchmarkTicker : String) (runDate : String) :
    Option DailyPerf :=
  match successfulRuns with
  | [] => none
  | r0 :: _ =>
    if strLt runDate r0.date then none
    else
      let runsUpToDate := successfulRuns.filter (fun r => strLe r.date runDate)
      if runsUpToDate.isEmpty then none
      else
        let segs := buildSegments runsUpToDate runDate
        let benchChart := if benchmarkTicker ≠ "" then chartFor benchmarkTicker else none
        (dailyRunSegs chartFor benchChart (initialNavState benchmarkTicker)
          (dailySegList segs)).map dailyPerfOf

/-! ### Heap model for the repair engine's copy discipline -/

/-- A store of holding objects; an address is an index. -/
abbrev Store := List Holding

/-- Read the object at an address. -/
def readH (σ : Store) (a : ℕ) : Holding := σ.getD a ⟨"", 0, ""⟩

/-- Overwrite the object at an address. -/
def writeH (σ : Store) (a : ℕ) (h : Holding) : Store := σ.set a h

/-- Allocate a fresh object, returning its address. -/
def allocH (σ : Store) (h : Holding) : Store × ℕ := (σ ++ [h], σ.length)

/-- Model of `initialPortfolio.map(item => ({...item}))`: allocate a shallow
copy of every input object, in order. -/
def copyAll (σ : Store) (addrs : List ℕ) : Store × List ℕ :=
  match addrs with
  | [] => (σ, [])
  | a :: rest =>
    let alloc := allocH σ (readH σ a)
    let next := copyAll alloc.1 rest
    (next.1, alloc.2 :: next.2)

/-- Model of the `byTicker` deduplication loop over the copied objects: a
new ticker allocates a second copy (`{...item}`); a repeated ticker mutates
the existing entry in place (weight sum, `UNKNOWN` sector replacement). -/
def dedupeStore : Store → List (String × ℕ) → List ℕ → Store × List (String × ℕ)
  | σ, assoc, [] => (σ, assoc)
  | σ, assoc, a :: rest =>
    let item := readH σ a
    match assoc.lookup item.ticker with
    | none =>
      let alloc := allocH σ item
      dedupeStore alloc.1 (assoc ++ [(item.ticker, alloc.2)]) rest
    | some existingAddr =>
      let existing := readH σ existingAddr
      dedupeStore
        (writeH σ existingAddr
          { existing with
              weight_pct := existing.weight_pct + item.weight_pct,
              sector :=
                if existing.sector = "UNKNOWN" ∧ item.sector ≠ "UNKNOWN" then item.sector
                else existing.sector })
        assoc rest

/-- Write the final repaired weights back into the working copies (the
script's later phases mutate exactly these objects, keyed here by their
unique tickers). -/
def writeBackByTicker (σ : Store) (addrs : List ℕ) (final : List Holding) : Store :=
  match addrs with
  | [] => σ
  | a :: rest =>
    let h := readH σ a
    match final.find? (fun f => f.ticker = h.ticker) with
    | some f => writeBackByTicker (writeH σ a f) rest final
    | none => writeBackByTicker σ rest final

/-- Store-level model of `enforcePortfolioConstraints`: the input portfolio
is a list of addresses; the run copies every object, deduplicates into
fresh copies, computes the result, and mutates only the working copies. -/
def enforcePortfolioConstraintsStore (σ : Store) (inputAddrs : List ℕ) (ctx : RepairContext) :
    Store × RepairResult :=
  let copied := copyAll σ inputAddrs
  let deduped := dedupeStore copied.1 [] copied.2
  let workAddrs := (deduped.2).map (·.2)
  let result := enforcePortfolioConstraints (inputAddrs.map (readH σ)) ctx
  (writeBackByTicker deduped.1 workAddrs result.portfolio, result)

/-- The first `n` objects of a store are untouched by an extension of it. -/
def StorePreservesBelow (n : ℕ) (σ₀ σ : Store) : Prop :=
  n ≤ σ.length ∧ ∀ i, i < n → readH σ i = readH σ₀ i

/-! ### Concrete fixtures used by witnesses and counterexamples -/

/-- A two-point chart fixture. -/
def chartW : Chart := { dates := ["2026-01-02", "2026-01-05"], closes := [10, 20] }

/-- A chart lookup resolving only the ticker `TT`. -/
def chartForW : String → Option Chart := fun t => if t = "TT" then some chartW else none

/-- A single-snapshot fund fixture dated on the chart's last trading day. -/
def snapW : Snapshot := { date := "2026-01-05", holdings := [⟨"TT", 100⟩] }

/-- A 10-holding portfolio split 5/5 over two sectors. -/
def portfolioTwoSectors : List Holding :=
  [⟨"A1", 10, "S1"⟩, ⟨"A2", 10, "S1"⟩, ⟨"A3", 10, "S1"⟩, ⟨"A4", 10, "S1"⟩, ⟨"A5", 10, "S1"⟩,
   ⟨"B1", 10, "S2"⟩, ⟨"B2", 10, "S2"⟩, ⟨"B3", 10, "S2"⟩, ⟨"B4", 10, "S2"⟩, ⟨"B5", 10, "S2"⟩]

/-- Twelve equal holdings of a single sector. -/
def portfolioTwelve : List Holding :=
  [⟨"T01", 1, "S"⟩, ⟨"T02", 1, "S"⟩, ⟨"T03", 1, "S"⟩, ⟨"T04", 1, "S"⟩,
   ⟨"T05", 1, "S"⟩, ⟨"T06", 1, "S"⟩, ⟨"T07", 1, "S"⟩, ⟨"T08", 1, "S"⟩,
   ⟨"T09", 1, "S"⟩, ⟨"T10", 1, "S"⟩, ⟨"T11", 1, "S"⟩, ⟨"T12", 1, "S"⟩]

/-! ## Helper lemmas -/

theorem lexLe_refl : ∀ l : List Char, lexLe l l = true
  | [] => rfl
  | a :: as => by simp [lexLe, lexLe_refl as]

theorem lexLe_total : ∀ a b : List Char, lexLe a b = true ∨ lexLe b a = true
  | [], _ => Or.inl rfl
  | _ :: _, [] => Or.inr rfl
  | a :: as, b :: bs => by
    rcases Nat.lt_trichotomy a.toNat b.toNat with h | h | h
    · exact Or.inl (by simp [lexLe, h])
    · rcases lexLe_total as bs with ih | ih <;>
        [exact Or.inl (by simp [lexLe, h, ih]); exact Or.inr (by simp [lexLe, h, ih])]
    · exact Or.inr (by simp [lexLe, h])

theorem lexLe_trans : ∀ a b c : List Char,
    lexLe a b = true → lexLe b c = true → lexLe a c = true
  | [], _, _, _, _ => rfl
  | _ :: _, [], _, hab, _ => by simp [lexLe] at hab
  | _ :: _, _ :: _, [], _, hbc => by simp [lexLe] at hbc
  | a :: as, b :: bs, c :: cs, hab, hbc => by
    simp only [lexLe] at hab hbc ⊢
    rcases Nat.lt_trichotomy a.toNat b.toNat with h1 | h1 | h1
    · rcases Nat.lt_trichotomy b.toNat c.toNat with h2 | h2 | h2
      · simp [Nat.lt_trans h1 h2]
      · have hac : a.toNat < c.toNat := by omega
        simp [hac]
      · simp [Nat.lt_asymm h2, h2] at hbc
    · have hrec1 : lexLe as bs = true := by
        simpa [h1, Nat.lt_irrefl] using hab
      rcases Nat.lt_trichotomy b.toNat c.toNat with h2 | h2 | h2
      · have hac : a.toNat < c.toNat := by omega
        simp [hac]
      · have hrec2 : lexLe bs cs = true := by
          simpa [h2, Nat.lt_irrefl] using hbc
        have e : a.toNat = c.toNat := by omega
        simp [e, Nat.lt_irrefl, lexLe_trans as bs cs hrec1 hrec2]
      · simp [Nat.lt_asymm h2, h2] at hbc
    · simp [Nat.lt_asymm h1, h1] at hab

theorem strLe_refl (a : String) : strLe a a = true := lexLe_refl a.data

theorem strLe_total (a b : String) : strLe a b = true ∨ strLe b a = true :=
  lexLe_total a.data b.data

theorem strLe_trans {a b c : String} (hab : strLe a b = true) (hbc : strLe b c = true) :
    strLe a c = true := lexLe_trans a.data b.data c.data hab hbc

theorem strLt_irrefl (a : String) : strLt a a = false := by
  simp [strLt, lexLe_refl]

theorem twoDp_round2 (x : ℚ) : TwoDp (round2 x) := by
  refine ⟨round (x * 100), ?_⟩
  rw [round2, div_mul_cancel₀]
  norm_num

theorem round2_eq_self {x : ℚ} (hx : TwoDp x) : round2 x = x := by
  obtain ⟨k, hk⟩ := hx
  have hx' : x = (k : ℚ) / 100 := by
    field_simp
    linarith [hk]
  rw [round2, hk, round_intCast, hx']

theorem round2_zero : round2 0 = 0 := by
  rw [round2]
  norm_num

theorem round2_nonneg {x : ℚ} (hx : 0 ≤ x) : 0 ≤ round2 x := by
  rw [round2]
  have : (0 : ℤ) ≤ round (x * 100) := by
    rw [round_eq]
    rw [Int.le_floor]
    push_cast
    linarith
  positivity

theorem twoDp_zero : TwoDp 0 := ⟨0, by norm_num⟩

theorem twoDp_add {x y : ℚ} (hx : TwoDp x) (hy : TwoDp y) : TwoDp (x + y) := by
  obtain ⟨k, hk⟩ := hx
  obtain ⟨l, hl⟩ := hy
  exact ⟨k + l, by push_cast; linarith⟩

theorem twoDp_max {x y : ℚ} (hx : TwoDp x) (hy : TwoDp y) : TwoDp (max x y) := by
  rcases le_total x y with h | h
  · rw [max_eq_right h]; exact hy
  · rw [max_eq_left h]; exact hx

theorem twoDp_sum {l : List ℚ} (h : ∀ x ∈ l, TwoDp x) : TwoDp l.sum := by
  induction l with
  | nil => simpa using twoDp_zero
  | cons a t ih =>
    rw [List.sum_cons]
    exact twoDp_add (h a (by simp)) (ih (fun x hx => h x (by simp [hx])))

theorem foldl_max_le {α : Type} (f : α → ℚ) {c : ℚ} :
    ∀ (l : List α) (a : ℚ), a ≤ c → (∀ x ∈ l, f x ≤ c) →
      l.foldl (fun m x => max m (f x)) a ≤ c
  | [], a, ha, _ => ha
  | x :: xs, a, ha, hl => by
    rw [List.foldl_cons]
    exact foldl_max_le f xs (max a (f x))
      (max_le ha (hl x (by simp)))
      (fun y hy => hl y (by simp [hy]))

theorem le_foldl_max {α : Type} (f : α → ℚ) :
    ∀ (l : List α) (a : ℚ),
      a ≤ l.foldl (fun m x => max m (f x)) a ∧
      ∀ x ∈ l, f x ≤ l.foldl (fun m x => max m (f x)) a
  | [], a => ⟨le_refl a, by simp⟩
  | x :: xs, a => by
    rw [List.foldl_cons]
    obtain ⟨h1, h2⟩ := le_foldl_max f xs (max a (f x))
    refine ⟨le_trans (le_max_left a (f x)) h1, ?_⟩
    intro y hy
    rcases List.mem_cons.1 hy with rfl | hy'
    · exact le_trans (le_max_right a (f y)) h1
    · exact h2 y hy'

theorem twoDp_foldl_max {α : Type} (f : α → ℚ) :
    ∀ (l : List α) (a : ℚ), TwoDp a → (∀ x ∈ l, TwoDp (f x)) →
      TwoDp (l.foldl (fun m x => max m (f x)) a)
  | [], _, ha, _ => ha
  | x :: xs, a, ha, hl => by
    rw [List.foldl_cons]
    exact twoDp_foldl_max f xs (max a (f x)) (twoDp_max ha (hl x (by simp)))
      (fun y hy => hl y (by simp [hy]))

theorem mem_dedupStrings {s : String} :
    ∀ (l seen : List String), s ∈ dedupStrings seen l ↔ (s ∈ l ∧ s ∉ seen)
  | [], seen => by simp [dedupStrings]
  | x :: xs, seen => by
    rw [dedupStrings]
    by_cases hx : x ∈ seen
    · rw [if_pos hx, mem_dedupStrings xs seen]
      constructor
      · rintro ⟨h1, h2⟩
        exact ⟨List.mem_cons_of_mem x h1, h2⟩
      · rintro ⟨h1, h2⟩
        rcases List.mem_cons.1 h1 with rfl | h1'
        · exact absurd hx h2
        · exact ⟨h1', h2⟩
    · rw [if_neg hx]
      constructor
      · intro h
        rcases List.mem_cons.1 h with rfl | h'
        · exact ⟨List.mem_cons_self s xs, hx⟩
        · obtain ⟨h1, h2⟩ := (mem_dedupStrings xs (x :: seen)).1 h'
          exact ⟨List.mem_cons_of_mem x h1, fun hmem => h2 (List.mem_cons_of_mem x hmem)⟩
      · rintro ⟨h1, h2⟩
        rcases List.mem_cons.1 h1 with rfl | h1'
        · exact List.mem_cons_self s _
        · by_cases hss : s = x
          · subst hss; exact List.mem_cons_self s _
          · exact List.mem_cons_of_mem x ((mem_dedupStrings xs (x :: seen)).2
              ⟨h1', by simp [hss, h2]⟩)

theorem mem_sectorList {h : Holding} {p : List Holding} (hp : h ∈ p) :
    h.sector ∈ sectorList p := by
  rw [sectorList, mem_dedupStrings]
  exact ⟨List.mem_map_of_mem (·.sector) hp, by simp⟩

theorem sectorSum_nonneg {p : List Holding} (hw : ∀ h ∈ p, 0 ≤ h.weight_pct) (s : String) :
    0 ≤ sectorSum p s := by
  rw [sectorSum]
  apply List.sum_nonneg
  intro x hx
  obtain ⟨h, hh, rfl⟩ := List.mem_map.1 hx
  exact hw h (List.mem_of_mem_filter hh)

theorem twoDp_sectorSum {p : List Holding} (hw : ∀ h ∈ p, TwoDp h.weight_pct) (s : String) :
    TwoDp (sectorSum p s) := by
  rw [sectorSum]
  apply twoDp_sum
  intro x hx
  obtain ⟨h, hh, rfl⟩ := List.mem_map.1 hx
  exact hw h (List.mem_of_mem_filter hh)

theorem sectorSum_eq_zero {p : List Holding} {s : String} (hs : s ∉ sectorList p) :
    sectorSum p s = 0 := by
  rw [sectorSum]
  have : p.filter (fun h => h.sector = s) = [] := by
    rw [List.filter_eq_nil_iff]
    intro h hp hdec
    exact hs (by
      have : h.sector = s := by simpa using hdec
      exact this ▸ mem_sectorList hp)
  rw [this]
  simp

theorem sum_le_length_mul {c : ℚ} :
    ∀ l : List ℚ, (∀ x ∈ l, x ≤ c) → l.sum ≤ (l.length : ℚ) * c
  | [], _ => by simp
  | x :: xs, h => by
    rw [List.sum_cons, List.length_cons]
    push_cast
    have h1 := h x (by simp)
    have h2 := sum_le_length_mul xs (fun y hy => h y (by simp [hy]))
    linarith

theorem sum_map_filter_partition {α : Type} (f : α → ℚ) (q : α → Bool) :
    ∀ l : List α,
      ((l.filter q).map f).sum + ((l.filter (fun x => !(q x))).map f).sum = (l.map f).sum
  | [] => by simp
  | x :: xs => by
    have ih := sum_map_filter_partition f q xs
    by_cases hq : q x = true
    · rw [List.filter_cons_of_pos hq, List.filter_cons_of_neg (by simp [hq]),
        List.map_cons, List.sum_cons, List.map_cons, List.sum_cons]
      linarith
    · rw [List.filter_cons_of_neg (by simpa using hq),
        List.filter_cons_of_pos (by simp [hq]), List.map_cons, List.sum_cons,
        List.map_cons, List.sum_cons]
      linarith

theorem totalWeight_filter_partition (p : List Holding) (q : Holding → Bool) :
    totalWeight (p.filter q) + totalWeight (p.filter (fun h => !(q h))) = totalWeight p := by
  rw [totalWeight, totalWeight, totalWeight]
  exact sum_map_filter_partition (fun h : Holding => h.weight_pct) q p

theorem sectorSum_filter_ne (p : List Holding) {s s' : String} (hne : s' ≠ s) :
    sectorSum (p.filter (fun h => !(h.sector = s))) s' = sectorSum p s' := by
  rw [sectorSum, sectorSum, List.filter_filter]
  have heq : (p.filter (fun a => (fun h => decide (h.sector = s')) a && !decide (a.sector = s)))
      = p.filter (fun h => decide (h.sector = s')) := by
    apply List.filter_congr
    intro h _
    by_cases hh : h.sector = s'
    · simp [hh, hne]
    · simp [hh]
  rw [heq]

theorem sectorPartition :
    ∀ (S : List String) (q : List Holding), S.Nodup → (∀ h ∈ q, h.sector ∈ S) →
      (S.map (fun s => sectorSum q s)).sum = totalWeight q
  | [], q, _, hcov => by
    have : q = [] := by
      cases q with
      | nil => rfl
      | cons h t => exact absurd (hcov h (by simp)) (by simp)
    simp [this, totalWeight]
  | s :: S', q, hnd, hcov => by
    rw [List.map_cons, List.sum_cons]
    have hnd' : S'.Nodup := (List.nodup_cons.1 hnd).2
    have hs : s ∉ S' := (List.nodup_cons.1 hnd).1
    have step : ∀ s' ∈ S', sectorSum q s' = sectorSum (q.filter (fun h => !(h.sector = s))) s' := by
      intro s' hs'
      have hne : s' ≠ s := fun he => hs (he ▸ hs')
      rw [sectorSum_filter_ne _ hne]
    have hmap : S'.map (fun s' => sectorSum q s') =
        S'.map (fun s' => sectorSum (q.filter (fun h => !(h.sector = s))) s') :=
      List.map_congr_left step
    have hcov' : ∀ h ∈ q.filter (fun h => !(h.sector = s)), h.sector ∈ S' := by
      intro h hh
      have hmem := List.mem_of_mem_filter hh
      have hns : h.sector ≠ s := by
        have := List.of_mem_filter hh
        simpa using this
      rcases List.mem_cons.1 (hcov h hmem) with he | he
      · exact absurd he hns
      · exact he
    rw [hmap, sectorPartition S' _ hnd' hcov']
    have hsq : sectorSum q s = totalWeight (q.filter (fun h => h.sector = s)) := rfl
    rw [hsq, totalWeight_filter_partition q (fun h => h.sector = s)]

theorem nodup_dedupStrings : ∀ (l seen : List String), (dedupStrings seen l).Nodup
  | [], _ => List.nodup_nil
  | x :: xs, seen => by
    rw [dedupStrings]
    by_cases hx : x ∈ seen
    · rw [if_pos hx]
      exact nodup_dedupStrings xs seen
    · rw [if_neg hx]
      refine List.nodup_cons.2 ⟨?_, nodup_dedupStrings xs (x :: seen)⟩
      intro hmem
      exact ((mem_dedupStrings xs (x :: seen)).1 hmem).2 (List.mem_cons_self x seen)

theorem nodup_sectorList (p : List Holding) : (sectorList p).Nodup :=
  nodup_dedupStrings _ _

theorem sectorSum_le_count_mul {p : List Holding} {mp : ℚ}
    (hw : ∀ h ∈ p, h.weight_pct ≤ mp) (s : String) :
    sectorSum p s ≤ (sectorCount p s : ℚ) * mp := by
  rw [sectorSum, sectorCount]
  have hlen : ((p.filter (fun h => h.sector = s)).map (·.weight_pct)).length
      = (p.filter (fun h => h.sector = s)).length := List.length_map _ _
  calc ((p.filter (fun h => h.sector = s)).map (·.weight_pct)).sum
      ≤ (((p.filter (fun h => h.sector = s)).map (·.weight_pct)).length : ℚ) * mp := by
        apply sum_le_length_mul
        intro x hx
        obtain ⟨h, hh, rfl⟩ := List.mem_map.1 hx
        exact hw h (List.mem_of_mem_filter hh)
    _ = ((p.filter (fun h => h.sector = s)).length : ℚ) * mp := by rw [hlen]

theorem capacity_ge_total {p : List Holding} {mp ms : ℚ}
    (hw : ∀ h ∈ p, h.weight_pct ≤ mp) (hs : ∀ s, sectorSum p s ≤ ms) :
    totalWeight p ≤ computeFeasibleCapacity p mp ms := by
  rw [computeFeasibleCapacity]
  have hcov : ∀ h ∈ p, h.sector ∈ sectorList p := fun h hp => mem_sectorList hp
  calc totalWeight p = ((sectorList p).map (fun s => sectorSum p s)).sum :=
        (sectorPartition _ p (nodup_sectorList p) hcov).symm
    _ ≤ ((sectorList p).map (fun s => min ((sectorCount p s : ℚ) * mp) ms)).sum := by
        apply List.sum_le_sum
        intro s _
        exact le_min (sectorSum_le_count_mul hw s) (hs s)

instance : IsTrans Holding holdDesc := by
  constructor
  intro a b c hab hbc
  rcases hab with h1 | ⟨e1, l1⟩ <;> rcases hbc with h2 | ⟨e2, l2⟩
  · exact Or.inl (lt_trans h2 h1)
  · exact Or.inl (e2 ▸ h1)
  · exact Or.inl (e1 ▸ h2)
  · exact Or.inr ⟨e1.trans e2, strLe_trans l1 l2⟩

instance : IsTotal Holding holdDesc := by
  constructor
  intro a b
  rcases lt_trichotomy a.weight_pct b.weight_pct with h | h | h
  · exact Or.inr (Or.inl h)
  · rcases strLe_total a.ticker b.ticker with hl | hl
    · exact Or.inl (Or.inr ⟨h, hl⟩)
    · exact Or.inr (Or.inr ⟨h.symm, hl⟩)
  · exact Or.inl (Or.inl h)

instance : IsTrans Holding holdAsc := by
  constructor
  intro a b c hab hbc
  rcases hab with h1 | ⟨e1, l1⟩ <;> rcases hbc with h2 | ⟨e2, l2⟩
  · exact Or.inl (lt_trans h1 h2)
  · exact Or.inl (e2 ▸ h1)
  · exact Or.inl (e1 ▸ h2)
  · exact Or.inr ⟨e1.trans e2, strLe_trans l1 l2⟩

instance : IsTotal Holding holdAsc := by
  constructor
  intro a b
  rcases lt_trichotomy a.weight_pct b.weight_pct with h | h | h
  · exact Or.inl (Or.inl h)
  · rcases strLe_total a.ticker b.ticker with hl | hl
    · exact Or.inl (Or.inr ⟨h, hl⟩)
    · exact Or.inr (Or.inr ⟨h.symm, hl⟩)
  · exact Or.inr (Or.inl h)

theorem mergeInto_of_not_mem :
    ∀ (acc : List Holding) (h : Holding), h.ticker ∉ acc.map (·.ticker) →
      mergeInto acc h = acc ++ [h]
  | [], _, _ => rfl
  | x :: xs, h, hmem => by
    rw [mergeInto]
    have hx : ¬ x.ticker = h.ticker := by
      intro he
      exact hmem (by simp [← he])
    rw [if_neg hx, mergeInto_of_not_mem xs h (fun hm => hmem (by simp [hm]))]
    rfl

theorem foldl_mergeInto_of_nodup :
    ∀ (p acc : List Holding), (((acc ++ p).map (·.ticker)).Nodup) →
      p.foldl mergeInto acc = acc ++ p
  | [], acc, _ => by simp
  | h :: t, acc, hnd => by
    rw [List.foldl_cons]
    have hsplit : h.ticker ∉ acc.map (·.ticker) := by
      rw [List.map_append, List.nodup_append] at hnd
      intro hmem
      exact hnd.2.2 hmem (by simp)
    rw [mergeInto_of_not_mem acc h hsplit]
    have hnd' : (((acc ++ [h]) ++ t).map (·.ticker)).Nodup := by
      simpa [List.append_assoc] using hnd
    rw [foldl_mergeInto_of_nodup t (acc ++ [h]) hnd']
    simp

theorem dedupeByTicker_eq_self {p : List Holding} (hnd : (p.map (·.ticker)).Nodup) :
    dedupeByTicker p = p := by
  have := foldl_mergeInto_of_nodup p [] (by simpa using hnd)
  simpa [dedupeByTicker] using this

theorem mergeInto_tickers (acc : List Holding) (h : Holding) :
    (mergeInto acc h).map (·.ticker) =
      if h.ticker ∈ acc.map (·.ticker) then acc.map (·.ticker)
      else acc.map (·.ticker) ++ [h.ticker] := by
  induction acc with
  | nil => simp [mergeInto]
  | cons x xs ih =>
    rw [mergeInto]
    by_cases hx : x.ticker = h.ticker
    · rw [if_pos hx]
      have : h.ticker ∈ (x :: xs).map (·.ticker) := by simp [hx.symm]
      rw [if_pos this]
      simp
    · rw [if_neg hx]
      by_cases hmem : h.ticker ∈ xs.map (·.ticker)
      · have : h.ticker ∈ (x :: xs).map (·.ticker) := by simp [hmem]
        rw [if_pos this]
        simp [ih, hmem]
      · have : h.ticker ∉ (x :: xs).map (·.ticker) := by
          simp only [List.map_cons, List.mem_cons]
          push_neg
          exact ⟨fun he => hx (he.symm), hmem⟩
        rw [if_neg this]
        simp [ih, hmem]

theorem dedupe_tickers_nodup (p : List Holding) :
    ((dedupeByTicker p).map (·.ticker)).Nodup := by
  rw [dedupeByTicker]
  suffices hgen : ∀ (l acc : List Holding), (acc.map (·.ticker)).Nodup →
      ((l.foldl mergeInto acc).map (·.ticker)).Nodup by
    exact hgen p [] (by simp)
  intro l
  induction l with
  | nil => intro acc hacc; simpa using hacc
  | cons h t ih =>
    intro acc hacc
    rw [List.foldl_cons]
    apply ih
    rw [mergeInto_tickers]
    by_cases hmem : h.ticker ∈ acc.map (·.ticker)
    · rwa [if_pos hmem]
    · rw [if_neg hmem]
      rw [List.nodup_append]
      exact ⟨hacc, List.nodup_singleton _, by simpa using hmem⟩

theorem tickers_of_weightOnly_map (p : List Holding) (g : Holding → Holding)
    (hg : ∀ h, (g h).ticker = h.ticker) :
    (p.map g).map (·.ticker) = p.map (·.ticker) := by
  rw [List.map_map]
  exact List.map_congr_left (fun h _ => hg h)

theorem tickers_setWeightFirst :
    ∀ (p : List Holding) (t : String) (w : ℚ),
      (setWeightFirst p t w).map (·.ticker) = p.map (·.ticker)
  | [], _, _ => rfl
  | h :: rest, t, w => by
    rw [setWeightFirst]
    by_cases hh : h.ticker = t
    · rw [if_pos hh]
      simp
    · rw [if_neg hh]
      simp [tickers_setWeightFirst rest t w]

theorem tickers_zipWithCaps (g : Holding → ℚ → Holding) (hg : ∀ h c, (g h c).ticker = h.ticker) :
    ∀ (p : List Holding) (caps : List ℚ), p.length ≤ caps.length →
      (List.zipWith g p caps).map (·.ticker) = p.map (·.ticker)
  | [], _, _ => by simp
  | h :: t, [], hlen => by simp at hlen
  | h :: t, c :: cs, hlen => by
    simp only [List.zipWith_cons_cons, List.map_cons]
    rw [hg, tickers_zipWithCaps g hg t cs (by simpa using hlen)]

theorem tickers_redistributeGo (mp ms : ℚ) :
    ∀ (fuel : ℕ) (p : List Holding) (r : ℚ),
      ((redistributeGo mp ms fuel p r).1).map (·.ticker) = p.map (·.ticker)
  | 0, _, _ => rfl
  | fuel + 1, p, r => by
    simp only [redistributeGo]
    by_cases h1 : r ≤ 1 / 1000000
    · rw [if_pos h1]
    · rw [if_neg h1]
      by_cases h2 : (p.map (fun h =>
          min (max 0 (mp - h.weight_pct)) (max 0 (ms - sectorSum p h.sector)))).sum
          ≤ 1 / 1000000000
      · rw [if_pos h2]
      · rw [if_neg h2]
        rw [tickers_redistributeGo mp ms fuel _ _]
        apply tickers_zipWithCaps
        · intro h c
          split <;> rfl
        · rw [List.length_map]

theorem tickers_applyTrim :
    ∀ (sorted p : List Holding) (tt : ℚ),
      (applyTrim p tt sorted).map (·.ticker) = p.map (·.ticker)
  | [], _, _ => rfl
  | c :: rest, p, tt => by
    rw [applyTrim]
    by_cases h : tt ≤ 1 / 1000000
    · rw [if_pos h]
    · rw [if_neg h, tickers_applyTrim rest _ _, tickers_setWeightFirst]

theorem tickers_finalizeGo (mp ms : ℚ) :
    ∀ (fuel : ℕ) (p : List Holding) (res : ℚ),
      (finalizeGo mp ms fuel p res).map (·.ticker) = p.map (·.ticker)
  | 0, _, _ => rfl
  | fuel + 1, p, res => by
    rw [finalizeGo]
    by_cases h1 : |res| < 1 / 100
    · rw [if_pos h1]
    · rw [if_neg h1]
      by_cases h2 : 0 < res
      · rw [if_pos h2]
        cases hfind : (List.insertionSort holdAsc p).find? (fun h =>
            decide (h.weight_pct + 1 / 100 ≤ mp) &&
            decide (sectorSum p h.sector + 1 / 100 ≤ ms)) with
        | none => rfl
        | some c =>
          rw [tickers_finalizeGo mp ms fuel _ _, tickers_setWeightFirst]
      · rw [if_neg h2]
        cases hfind : (List.insertionSort holdDesc p).find? (fun h =>
            decide (1 / 100 ≤ h.weight_pct)) with
        | none => rfl
        | some c =>
          rw [tickers_finalizeGo mp ms fuel _ _, tickers_setWeightFirst]

theorem tickers_finalize (p : List Holding) (mp ms : ℚ) :
    (finalizeRoundedWeights p mp ms).map (·.ticker) = p.map (·.ticker) := by
  rw [finalizeRoundedWeights]
  have hmap : ((p.map (fun h => { h with weight_pct := round2 (max 0 h.weight_pct) })).map
      (·.ticker)) = p.map (·.ticker) :=
    tickers_of_weightOnly_map p _ (fun h => rfl)
  by_cases h : |round2 (100 - totalWeight
      (p.map (fun h => { h with weight_pct := round2 (max 0 h.weight_pct) })))| < 1 / 100
  · rw [if_pos h]
    exact hmap
  · rw [if_neg h, tickers_finalizeGo]
    exact hmap

theorem tickers_adjustTotal (p : List Holding) (ctx : RepairContext) :
    (adjustTotal p ctx).map (·.ticker) = p.map (·.ticker) := by
  rw [adjustTotal]
  by_cases h1 : totalWeight p < 100 - 1 / 1000000
  · rw [if_pos h1, redistributeWithinCaps, tickers_redistributeGo]
  · rw [if_neg h1]
    by_cases h2 : 100 + 1 / 1000000 < totalWeight p
    · rw [if_pos h2, tickers_applyTrim]
    · rw [if_neg h2]

theorem tickers_clipToMax (p : List Holding) (mp : ℚ) :
    ((clipToMax p mp).1).map (·.ticker) = p.map (·.ticker) :=
  tickers_of_weightOnly_map p _ (fun h => by split <;> rfl)

theorem tickers_scaleSectors (p : List Holding) (ms : ℚ) :
    ((scaleSectors p ms).1).map (·.ticker) = p.map (·.ticker) :=
  tickers_of_weightOnly_map p _ (fun h => by split <;> rfl)

theorem tickers_repairBody (p0 : List Holding) (ctx : RepairContext) :
    ((repairBody p0 ctx).1).map (·.ticker) = p0.map (·.ticker) := by
  have h1 : (repairBody p0 ctx).1 =
      finalizeRoundedWeights
        (adjustTotal
          (redistributeWithinCaps
            (scaleSectors (clipToMax p0 ctx.maxPositionPct).1 ctx.maxSectorPct).1
            ((clipToMax p0 ctx.maxPositionPct).2 +
              (scaleSectors (clipToMax p0 ctx.maxPositionPct).1 ctx.maxSectorPct).2)
            ctx.maxPositionPct ctx.maxSectorPct).1
          ctx)
        ctx.maxPositionPct ctx.maxSectorPct := rfl
  rw [h1, tickers_finalize, tickers_adjustTotal, redistributeWithinCaps,
    tickers_redistributeGo, tickers_scaleSectors, tickers_clipToMax]

theorem setWeightFirst_pred (P : ℚ → Prop) :
    ∀ (p : List Holding) (t : String) (w : ℚ),
      (∀ h ∈ p, P h.weight_pct) → P w → ∀ h ∈ setWeightFirst p t w, P h.weight_pct
  | [], _, _, _, _, h, hm => absurd hm (List.not_mem_nil h)
  | x :: rest, t, w, hp, hw, h, hm => by
    rw [setWeightFirst] at hm
    by_cases hx : x.ticker = t
    · rw [if_pos hx] at hm
      rcases List.mem_cons.1 hm with he | hm'
      · rw [he]
        exact hw
      · exact hp h (List.mem_cons_of_mem x hm')
    · rw [if_neg hx] at hm
      rcases List.mem_cons.1 hm with he | hm'
      · rw [he]
        exact hp x (List.mem_cons_self x rest)
      · exact setWeightFirst_pred P rest t w
          (fun y hy => hp y (List.mem_cons_of_mem x hy)) hw h hm'

theorem finalizeGo_weights_inv (mp ms : ℚ) :
    ∀ (fuel : ℕ) (p : List Holding) (res : ℚ),
      (∀ h ∈ p, 0 ≤ h.weight_pct ∧ TwoDp h.weight_pct) →
      ∀ h ∈ finalizeGo mp ms fuel p res, 0 ≤ h.weight_pct ∧ TwoDp h.weight_pct
  | 0, p, res, hp => hp
  | fuel + 1, p, res, hp => by
    rw [finalizeGo]
    by_cases h1 : |res| < 1 / 100
    · rw [if_pos h1]; exact hp
    · rw [if_neg h1]
      by_cases h2 : 0 < res
      · rw [if_pos h2]
        cases hfind : (List.insertionSort holdAsc p).find? (fun h =>
            decide (h.weight_pct + 1 / 100 ≤ mp) &&
            decide (sectorSum p h.sector + 1 / 100 ≤ ms)) with
        | none => exact hp
        | some c =>
          apply finalizeGo_weights_inv mp ms fuel
          have hc : c ∈ p :=
            ((List.perm_insertionSort holdAsc p).mem_iff).1 (List.mem_of_find?_eq_some hfind)
          exact setWeightFirst_pred (fun w => 0 ≤ w ∧ TwoDp w) p c.ticker _ hp
            ⟨round2_nonneg (by linarith [(hp c hc).1]), twoDp_round2 _⟩
      · rw [if_neg h2]
        cases hfind : (List.insertionSort holdDesc p).find? (fun h =>
            decide (1 / 100 ≤ h.weight_pct)) with
        | none => exact hp
        | some c =>
          apply finalizeGo_weights_inv mp ms fuel
          have hcw : (1 : ℚ) / 100 ≤ c.weight_pct := by
            have := List.find?_some hfind
            simpa using this
          exact setWeightFirst_pred (fun w => 0 ≤ w ∧ TwoDp w) p c.ticker _ hp
            ⟨round2_nonneg (by linarith), twoDp_round2 _⟩

theorem finalize_weights_inv (p : List Holding) (mp ms : ℚ) :
    ∀ h ∈ finalizeRoundedWeights p mp ms, 0 ≤ h.weight_pct ∧ TwoDp h.weight_pct := by
  rw [finalizeRoundedWeights]
  have hbase : ∀ h ∈ p.map (fun h => { h with weight_pct := round2 (max 0 h.weight_pct) }),
      0 ≤ h.weight_pct ∧ TwoDp h.weight_pct := by
    intro h hm
    obtain ⟨h0, _, rfl⟩ := List.mem_map.1 hm
    exact ⟨round2_nonneg (le_max_left 0 _), twoDp_round2 _⟩
  by_cases hres : |round2 (100 - totalWeight
      (p.map (fun h => { h with weight_pct := round2 (max 0 h.weight_pct) })))| < 1 / 100
  · rw [if_pos hres]; exact hbase
  · rw [if_neg hres]
    exact finalizeGo_weights_inv mp ms 500 _ _ hbase

theorem repairBody_weights_inv (p0 : List Holding) (ctx : RepairContext) :
    ∀ h ∈ (repairBody p0 ctx).1, 0 ≤ h.weight_pct ∧ TwoDp h.weight_pct := by
  have h1 : (repairBody p0 ctx).1 =
      finalizeRoundedWeights
        (adjustTotal
          (redistributeWithinCaps
            (scaleSectors (clipToMax p0 ctx.maxPositionPct).1 ctx.maxSectorPct).1
            ((clipToMax p0 ctx.maxPositionPct).2 +
              (scaleSectors (clipToMax p0 ctx.maxPositionPct).1 ctx.maxSectorPct).2)
            ctx.maxPositionPct ctx.maxSectorPct).1
          ctx)
        ctx.maxPositionPct ctx.maxSectorPct := rfl
  rw [h1]
  exact finalize_weights_inv _ _ _

theorem maxWeight_mem_le (q : List Holding) (hne : q ≠ []) :
    ∀ h ∈ q, h.weight_pct ≤ maxWeight q := by
  cases q with
  | nil => exact absurd rfl hne
  | cons x xs =>
    intro h hm
    rw [maxWeight]
    rcases List.mem_cons.1 hm with he | hm'
    · rw [he]
      exact (le_foldl_max (fun h : Holding => h.weight_pct) xs x.weight_pct).1
    · exact (le_foldl_max (fun h : Holding => h.weight_pct) xs x.weight_pct).2 h hm'

theorem twoDp_maxWeight (q : List Holding) (hne : q ≠ [])
    (hq : ∀ h ∈ q, TwoDp h.weight_pct) : TwoDp (maxWeight q) := by
  cases q with
  | nil => exact absurd rfl hne
  | cons x xs =>
    rw [maxWeight]
    exact twoDp_foldl_max (fun h : Holding => h.weight_pct) xs x.weight_pct (hq x (by simp))
      (fun y hy => hq y (by simp [hy]))

theorem final_check_bounds {q : List Holding} {mp ms : ℚ} (hne : q ≠ [])
    (hinv : ∀ h ∈ q, 0 ≤ h.weight_pct ∧ TwoDp h.weight_pct)
    (h1 : round2 (maxWeight q) ≤ mp + 1 / 100)
    (h2 : sectorMaxWeight q ≤ ms + 1 / 100) :
    (∀ h ∈ q, 0 ≤ h.weight_pct ∧ h.weight_pct ≤ mp + 1 / 100) ∧
    (∀ s, sectorSum q s ≤ ms + 1 / 100) := by
  have hmax : round2 (maxWeight q) = maxWeight q :=
    round2_eq_self (twoDp_maxWeight q hne (fun h hm => (hinv h hm).2))
  rw [hmax] at h1
  have hfold2dp : TwoDp ((sectorList q).foldl (fun m s => max m (sectorSum q s)) 0) :=
    twoDp_foldl_max (fun s => sectorSum q s) (sectorList q) 0 twoDp_zero
      (fun s _ => twoDp_sectorSum (fun h hm => (hinv h hm).2) s)
  have hsec : sectorMaxWeight q =
      (sectorList q).foldl (fun m s => max m (sectorSum q s)) 0 := by
    rw [sectorMaxWeight, round2_eq_self hfold2dp]
  rw [hsec] at h2
  constructor
  · intro h hm
    exact ⟨(hinv h hm).1, le_trans (maxWeight_mem_le q hne h hm) h1⟩
  · intro s
    by_cases hs : s ∈ sectorList q
    · exact le_trans
        ((le_foldl_max (fun s => sectorSum q s) (sectorList q) 0).2 s hs) h2
    · rw [sectorSum_eq_zero hs]
      have h0 : (0 : ℚ) ≤ (sectorList q).foldl (fun m s => max m (sectorSum q s)) 0 :=
        (le_foldl_max (fun s => sectorSum q s) (sectorList q) 0).1
      linarith

theorem trimToTop_length_le (p : List Holding) (n : ℕ) :
    (trimToTop p n).length ≤ n := by
  rw [trimToTop]
  by_cases h : n < p.length
  · rw [if_pos h, List.length_take]
    exact min_le_left n _
  · rw [if_neg h]
    omega

theorem tickers_normalize (p : List Holding) :
    ((normalizeWeightsTo100 p).map (·.ticker)) = p.map (·.ticker) :=
  tickers_of_weightOnly_map p _ (fun _ => rfl)

theorem tickers_trimToTop_nodup {p : List Holding} (n : ℕ)
    (hnd : (p.map (·.ticker)).Nodup) : ((trimToTop p n).map (·.ticker)).Nodup := by
  rw [trimToTop]
  by_cases h : n < p.length
  · rw [if_pos h, List.map_take]
    have hperm : List.Perm ((List.insertionSort holdDesc p).map (fun h : Holding => h.ticker))
        (p.map (fun h : Holding => h.ticker)) :=
      List.Perm.map _ (List.perm_insertionSort holdDesc p)
    exact ((hperm.nodup_iff).2 hnd).sublist (List.take_sublist n _)
  · rw [if_neg h]
    exact hnd

/-- Claim C1, amended.  For every candidate portfolio and configuration, the
repair engine returns either a structured failure carrying one of the three
reason codes, or (fallback-free) a portfolio with between 1 and `positions`
unique holdings whose weights all lie in `[0, max_position_pct + 0.01]` and
whose sector totals are at most `max_sector_pct + 0.01`.  (The code enforces
neither a holding count of exactly N, nor a minimum position bound — the
parsed configuration has none — nor a total of 100 ± 0.01; see the
counterexample.) -/
theorem c1_repair_result_soundness (p : List Holding) (ctx : RepairContext) :
    (enforcePortfolioConstraints p ctx).fallbackReason =
        some FallbackReason.emptyOrInvalidPortfolio ∨
    (∃ c, (enforcePortfolioConstraints p ctx).fallbackReason =
        some (FallbackReason.infeasibleSectorCapacity c)) ∨
    (∃ mpo mso, (enforcePortfolioConstraints p ctx).fallbackReason =
        some (FallbackReason.postRepairConstraintsFailed mpo mso)) ∨
    ((enforcePortfolioConstraints p ctx).fallbackReason = none ∧
     1 ≤ (enforcePortfolioConstraints p ctx).portfolio.length ∧
     (enforcePortfolioConstraints p ctx).portfolio.length ≤ ctx.positions ∧
     (((enforcePortfolioConstraints p ctx).portfolio.map (·.ticker)).Nodup) ∧
     (∀ h ∈ (enforcePortfolioConstraints p ctx).portfolio,
        0 ≤ h.weight_pct ∧ h.weight_pct ≤ ctx.maxPositionPct + 1 / 100) ∧
     (∀ s, sectorSum (enforcePortfolioConstraints p ctx).portfolio s ≤
        ctx.maxSectorPct + 1 / 100)) := by
  rw [enforcePortfolioConstraints]
  simp only []
  split
  · left; rfl
  · split
    · right; left; exact ⟨_, rfl⟩
    · split
      · next hguard hfeas hchk =>
        right; right; right
        have hte : ((repairBody (normalizeWeightsTo100
            (trimToTop (dedupeByTicker p) ctx.positions)) ctx).1).map (·.ticker) =
            (trimToTop (dedupeByTicker p) ctx.positions).map (·.ticker) := by
          rw [tickers_repairBody, tickers_normalize]
        have hlen : ((repairBody (normalizeWeightsTo100
            (trimToTop (dedupeByTicker p) ctx.positions)) ctx).1).length =
            (trimToTop (dedupeByTicker p) ctx.positions).length := by
          have := congrArg List.length hte
          simpa [List.length_map] using this
        have hne' : trimToTop (dedupeByTicker p) ctx.positions ≠ [] := by
          intro habs
          exact hguard (Or.inl (by simp [habs]))
        have hqne : (repairBody (normalizeWeightsTo100
            (trimToTop (dedupeByTicker p) ctx.positions)) ctx).1 ≠ [] := by
          intro habs
          rw [habs] at hlen
          exact hne' (List.eq_nil_of_length_eq_zero hlen.symm)
        have hbounds := final_check_bounds hqne (repairBody_weights_inv _ ctx) hchk.1 hchk.2
        refine ⟨rfl, ?_, ?_, ?_, hbounds.1, hbounds.2⟩
        · show 1 ≤ ((repairBody (normalizeWeightsTo100
            (trimToTop (dedupeByTicker p) ctx.positions)) ctx).1).length
          rw [hlen]
          exact List.length_pos.2 hne'
        · show ((repairBody (normalizeWeightsTo100
            (trimToTop (dedupeByTicker p) ctx.positions)) ctx).1).length ≤ ctx.positions
          rw [hlen]
          exact trimToTop_length_le _ _
        · show (((repairBody (normalizeWeightsTo100
            (trimToTop (dedupeByTicker p) ctx.positions)) ctx).1).map (·.ticker)).Nodup
          rw [hte]
          exact tickers_trimToTop_nodup _ (dedupe_tickers_nodup p)
      · right; right; left; exact ⟨_, _, rfl⟩

/-- Claim C1, counterexample to the claim as stated.  First facet: a
feasible single-holding candidate against an `N = 10` lane repairs to a
1-holding portfolio without any structured failure — not "exactly N unique
holdings".  Second facet: twelve equal holdings with `max_position = 8.334`
round down to 8.33 each, the reconciliation loop finds no holding with
headroom, and the engine returns a fallback-free portfolio totalling 99.96 —
not `100.00 ± 0.01`. -/
theorem c1_counterexample :
    ((enforcePortfolioConstraints [⟨"AAPL", 50, "Technology"⟩] ⟨10, 100, 100⟩).fallbackReason
        = none ∧
     (enforcePortfolioConstraints [⟨"AAPL", 50, "Technology"⟩] ⟨10, 100, 100⟩).portfolio.length
        = 1 ∧
     (1 : ℕ) ≠ 10) ∧
    ((enforcePortfolioConstraints portfolioTwelve ⟨12, 4167 / 500, 1000⟩).fallbackReason
        = none ∧
     totalWeight (enforcePortfolioConstraints portfolioTwelve ⟨12, 4167 / 500, 1000⟩).portfolio
        = 9996 / 100 ∧
     ¬ |100 - (9996 : ℚ) / 100| ≤ 1 / 100) := by
  refine ⟨⟨by decide, by decide, by decide⟩, ⟨by decide, by decide, by decide⟩⟩

/-- Claim C3, amended.  The feasibility check sums
`min(holdings_in_sector * max_position_pct, max_sector_pct)` over sectors,
but the failure guard carries a `1e-6` tolerance: the repair fails with
`infeasible_sector_capacity` whenever `capacity + 1e-6 < 100` (not whenever
`capacity < 100`).  The concrete 5/5-sector example has capacity 60 and
fails as the claim states. -/
theorem c3_feasibility_check :
    (∀ (p : List Holding) (ctx : RepairContext),
      ¬((trimToTop (dedupeByTicker p) ctx.positions).isEmpty = true ∨
        totalWeight (trimToTop (dedupeByTicker p) ctx.positions) ≤ 0) →
      computeFeasibleCapacity (normalizeWeightsTo100 (trimToTop (dedupeByTicker p) ctx.positions))
          ctx.maxPositionPct ctx.maxSectorPct + 1 / 1000000 < 100 →
      (enforcePortfolioConstraints p ctx).fallbackReason =
        some (FallbackReason.infeasibleSectorCapacity (round2 (computeFeasibleCapacity
          (normalizeWeightsTo100 (trimToTop (dedupeByTicker p) ctx.positions))
          ctx.maxPositionPct ctx.maxSectorPct)))) ∧
    (computeFeasibleCapacity
        (normalizeWeightsTo100 (trimToTop (dedupeByTicker portfolioTwoSectors) 10)) 20 30 = 60 ∧
     (enforcePortfolioConstraints portfolioTwoSectors ⟨10, 20, 30⟩).fallbackReason =
       some (FallbackReason.infeasibleSectorCapacity 60)) := by
  refine ⟨?_, by decide, by decide⟩
  intro p ctx hguard hcap
  rw [enforcePortfolioConstraints]
  simp only []
  rw [if_neg hguard, if_pos hcap]

/-- Witness for claim C3: the amended feasibility statement applied to the
concrete 5/5-sector example. -/
theorem c3_witness :
    (enforcePortfolioConstraints portfolioTwoSectors ⟨10, 20, 30⟩).fallbackReason =
      some (FallbackReason.infeasibleSectorCapacity (round2 (computeFeasibleCapacity
        (normalizeWeightsTo100 (trimToTop (dedupeByTicker portfolioTwoSectors)
          (RepairContext.mk 10 20 30).positions))
        (RepairContext.mk 10 20 30).maxPositionPct (RepairContext.mk 10 20 30).maxSectorPct))) :=
  c3_feasibility_check.1 portfolioTwoSectors ⟨10, 20, 30⟩ (by decide) (by decide)

/-- Claim C3, counterexample to the claim as stated: a configuration with
`max_position_pct = 99.9999999` over one holding has feasible capacity
`99.9999999 < 100`, yet `capacity + 1e-6 ≥ 100`, so the repair does not fail
(it returns a fallback-free portfolio). -/
theorem c3_counterexample :
    computeFeasibleCapacity (normalizeWeightsTo100 (trimToTop (dedupeByTicker
      [⟨"A", 50, "Tech"⟩]) 10)) (999999999 / 10000000) 1000 < 100 ∧
    (enforcePortfolioConstraints [⟨"A", 50, "Tech"⟩]
      ⟨10, 999999999 / 10000000, 1000⟩).fallbackReason = none := by
  exact ⟨by decide, by decide⟩

theorem totalWeight_normalize (t : List Holding) (h : totalWeight t ≠ 0) :
    totalWeight (normalizeWeightsTo100 t) = 100 := by
  rw [normalizeWeightsTo100, totalWeight, List.map_map]
  show (t.map (fun h => h.weight_pct * 100 / totalWeight t)).sum = 100
  have hfn : (fun h : Holding => h.weight_pct * 100 / totalWeight t) =
      (fun h : Holding => h.weight_pct * (100 / totalWeight t)) :=
    funext (fun h => by rw [mul_div_assoc])
  rw [hfn, List.sum_map_mul_right]
  show totalWeight t * (100 / totalWeight t) = 100
  field_simp

/-- Claim C6, confirmed.  When more than `positions` holdings survive
deduplication, the engine keeps exactly the first `positions` of the
holdings sorted by weight descending with ascending-ticker tie-break: the
kept list has length N, kept plus dropped is a permutation of the deduped
candidate, every kept holding ranks at least every dropped one under the
trim comparator, and normalization then makes the kept weights sum to
exactly 100. -/
theorem c6_trim_top_n (p : List Holding) (n : ℕ) (hn : n < (dedupeByTicker p).length) :
    trimToTop (dedupeByTicker p) n = (List.insertionSort holdDesc (dedupeByTicker p)).take n ∧
    (trimToTop (dedupeByTicker p) n).length = n ∧
    List.Perm (trimToTop (dedupeByTicker p) n ++
      (List.insertionSort holdDesc (dedupeByTicker p)).drop n) (dedupeByTicker p) ∧
    (∀ x ∈ trimToTop (dedupeByTicker p) n,
      ∀ y ∈ (List.insertionSort holdDesc (dedupeByTicker p)).drop n, holdDesc x y) ∧
    (0 < totalWeight (trimToTop (dedupeByTicker p) n) →
      totalWeight (normalizeWeightsTo100 (trimToTop (dedupeByTicker p) n)) = 100) := by
  have hlen_sort : (List.insertionSort holdDesc (dedupeByTicker p)).length =
      (dedupeByTicker p).length :=
    (List.perm_insertionSort holdDesc (dedupeByTicker p)).length_eq
  have ht : trimToTop (dedupeByTicker p) n =
      (List.insertionSort holdDesc (dedupeByTicker p)).take n := by
    rw [trimToTop, if_pos hn]
  refine ⟨ht, ?_, ?_, ?_, ?_⟩
  · rw [ht, List.length_take, hlen_sort]
    omega
  · rw [ht, List.take_append_drop]
    exact List.perm_insertionSort holdDesc (dedupeByTicker p)
  · intro x hx y hy
    have hsorted : List.Pairwise holdDesc (List.insertionSort holdDesc (dedupeByTicker p)) :=
      List.sorted_insertionSort holdDesc (dedupeByTicker p)
    rw [← List.take_append_drop n (List.insertionSort holdDesc (dedupeByTicker p)),
      List.pairwise_append] at hsorted
    rw [ht] at hx
    exact hsorted.2.2 x hx y hy
  · intro hpos
    exact totalWeight_normalize _ (ne_of_gt hpos)

/-- Witness for claim C6: three deduplicated holdings against an `N = 2`
lane keep exactly two and renormalize them to a 100 total. -/
theorem c6_witness :
    (trimToTop (dedupeByTicker
      [⟨"AAA", 30, "S1"⟩, ⟨"BBB", 50, "S2"⟩, ⟨"CCC", 20, "S3"⟩]) 2).length = 2 ∧
    totalWeight (normalizeWeightsTo100 (trimToTop (dedupeByTicker
      [⟨"AAA", 30, "S1"⟩, ⟨"BBB", 50, "S2"⟩, ⟨"CCC", 20, "S3"⟩]) 2)) = 100 := by
  have h := c6_trim_top_n [⟨"AAA", 30, "S1"⟩, ⟨"BBB", 50, "S2"⟩, ⟨"CCC", 20, "S3"⟩] 2
    (by decide)
  exact ⟨h.2.1, h.2.2.2.2 (by decide)⟩

theorem redistributeWithinCaps_zero (p : List Holding) (mp ms : ℚ) :
    redistributeWithinCaps p 0 mp ms = (p, 0) := by
  rw [redistributeWithinCaps, show (80 : ℕ) = 79 + 1 from rfl, redistributeGo,
    if_pos (by norm_num : (0 : ℚ) ≤ 1 / 1000000)]

theorem maxWeight_le {q : List Holding} {c : ℚ} (hne : q ≠ [])
    (hq : ∀ h ∈ q, h.weight_pct ≤ c) : maxWeight q ≤ c := by
  cases q with
  | nil => exact absurd rfl hne
  | cons x xs =>
    rw [maxWeight]
    exact foldl_max_le (fun h : Holding => h.weight_pct) xs x.weight_pct
      (hq x (by simp)) (fun y hy => hq y (by simp [hy]))

/-- Claim C7, confirmed.  Repairing a portfolio that is already valid —
non-empty with exactly `positions` unique tickers, two-decimal weights in
`[0, max_position_pct]`, sector sums within `max_sector_pct`, and a total of
exactly 100 — returns it unchanged, with no fallback, no notes and
`repaired = false`. -/
theorem c7_repair_idempotent (p : List Holding) (ctx : RepairContext)
    (hne : p ≠ [])
    (hlen : p.length = ctx.positions)
    (hnd : (p.map (·.ticker)).Nodup)
    (hw : ∀ h ∈ p, 0 ≤ h.weight_pct ∧ h.weight_pct ≤ ctx.maxPositionPct ∧ TwoDp h.weight_pct)
    (hs : ∀ s, sectorSum p s ≤ ctx.maxSectorPct)
    (ht : totalWeight p = 100) :
    enforcePortfolioConstraints p ctx =
      { portfolio := p, repaired := false, fallbackReason := none, notes := [] } := by
  have hded : dedupeByTicker p = p := dedupeByTicker_eq_self hnd
  have htrim : trimToTop p ctx.positions = p := by
    rw [trimToTop, if_neg (by omega)]
  have hnorm : normalizeWeightsTo100 p = p := by
    simp only [normalizeWeightsTo100]
    have hcong : ∀ h ∈ p,
        ({ h with weight_pct := h.weight_pct * 100 / totalWeight p } : Holding) = id h := by
      intro h _
      have heq : h.weight_pct * 100 / totalWeight p = h.weight_pct := by
        rw [ht]
        exact mul_div_cancel_right₀ _ (by norm_num)
      rw [heq]
      rfl
    rw [List.map_congr_left hcong, List.map_id]
  have hms0 : (0 : ℚ) ≤ ctx.maxSectorPct :=
    le_trans (sectorSum_nonneg (fun h hm => (hw h hm).1) "") (hs "")
  have hguard : ¬ ((trimToTop (dedupeByTicker p) ctx.positions).isEmpty = true ∨
      totalWeight (trimToTop (dedupeByTicker p) ctx.positions) ≤ 0) := by
    rw [hded, htrim]
    push_neg
    refine ⟨?_, by rw [ht]; norm_num⟩
    intro habs
    exact hne (by simpa using habs)
  have hfeas : ¬ (computeFeasibleCapacity (normalizeWeightsTo100
      (trimToTop (dedupeByTicker p) ctx.positions)) ctx.maxPositionPct ctx.maxSectorPct
      + 1 / 1000000 < 100) := by
    rw [hded, htrim, hnorm]
    have hcap := capacity_ge_total (p := p) (fun h hm => (hw h hm).2.1) hs
    rw [ht] at hcap
    intro habs
    linarith
  have hclip : clipToMax p ctx.maxPositionPct = (p, 0) := by
    rw [clipToMax]
    have h1 : ∀ h ∈ p,
        (if ctx.maxPositionPct < h.weight_pct then
          ({ h with weight_pct := ctx.maxPositionPct } : Holding) else h) = id h := by
      intro h hm
      rw [if_neg (not_lt.2 (hw h hm).2.1)]
      rfl
    have h2 : (p.map (fun h =>
        if ctx.maxPositionPct < h.weight_pct then h.weight_pct - ctx.maxPositionPct else 0)).sum
        = 0 := by
      apply List.sum_eq_zero
      intro x hx
      obtain ⟨h, hm, rfl⟩ := List.mem_map.1 hx
      rw [if_neg (not_lt.2 (hw h hm).2.1)]
    rw [List.map_congr_left h1, List.map_id, h2]
  have hscale : scaleSectors p ctx.maxSectorPct = (p, 0) := by
    rw [scaleSectors]
    have hcond : ∀ h : Holding,
        ¬ (ctx.maxSectorPct + 1 / 1000000000 < sectorSum p h.sector) := by
      intro h
      exact not_lt.2 (le_trans (hs h.sector) (by linarith))
    have h1 : ∀ h ∈ p,
        (if ctx.maxSectorPct + 1 / 1000000000 < sectorSum p h.sector then
          ({ h with weight_pct := h.weight_pct *
            (ctx.maxSectorPct / sectorSum p h.sector) } : Holding) else h) = id h := by
      intro h _
      rw [if_neg (hcond h)]
      rfl
    have h2 : (p.map (fun h =>
        if ctx.maxSectorPct + 1 / 1000000000 < sectorSum p h.sector then
          h.weight_pct - h.weight_pct * (ctx.maxSectorPct / sectorSum p h.sector)
        else 0)).sum = 0 := by
      apply List.sum_eq_zero
      intro x hx
      obtain ⟨h, _, rfl⟩ := List.mem_map.1 hx
      rw [if_neg (hcond h)]
    rw [List.map_congr_left h1, List.map_id, h2]
  have hadj : adjustTotal p ctx = p := by
    rw [adjustTotal]
    simp only [ht]
    rw [if_neg (by norm_num), if_neg (by norm_num)]
  have hadjn : adjustNotes p ctx = [] := by
    rw [adjustNotes]
    simp only [ht]
    rw [if_neg (by norm_num)]
  have hfin : finalizeRoundedWeights p ctx.maxPositionPct ctx.maxSectorPct = p := by
    rw [finalizeRoundedWeights]
    have hmap : p.map (fun h => { h with weight_pct := round2 (max 0 h.weight_pct) }) = p := by
      have hcong : ∀ h ∈ p,
          ({ h with weight_pct := round2 (max 0 h.weight_pct) } : Holding) = id h := by
        intro h hm
        rw [max_eq_right (hw h hm).1, round2_eq_self (hw h hm).2.2]
        rfl
      rw [List.map_congr_left hcong, List.map_id]
    rw [hmap, ht, show (100 : ℚ) - 100 = 0 by norm_num, round2_zero,
      if_pos (by norm_num : |(0 : ℚ)| < 1 / 100)]
  have hbody : repairBody p ctx = (p, []) := by
    rw [repairBody]
    simp only [hclip, hscale]
    rw [show (0 : ℚ) + 0 = 0 by norm_num, redistributeWithinCaps_zero]
    simp only [hadj, hadjn, hfin]
    rw [if_neg (by norm_num : ¬ (1 : ℚ) / 20 < 0)]
    rfl
  have hchk : round2 (maxWeight (repairBody (normalizeWeightsTo100
      (trimToTop (dedupeByTicker p) ctx.positions)) ctx).1) ≤ ctx.maxPositionPct + 1 / 100 ∧
      sectorMaxWeight (repairBody (normalizeWeightsTo100
        (trimToTop (dedupeByTicker p) ctx.positions)) ctx).1 ≤ ctx.maxSectorPct + 1 / 100 := by
    rw [hded, htrim, hnorm, hbody]
    constructor
    · rw [round2_eq_self (twoDp_maxWeight p hne (fun h hm => (hw h hm).2.2))]
      have := maxWeight_le hne (fun h hm => (hw h hm).2.1)
      linarith
    · rw [sectorMaxWeight]
      have hfold : (sectorList p).foldl (fun m s => max m (sectorSum p s)) 0
          ≤ ctx.maxSectorPct :=
        foldl_max_le (fun s => sectorSum p s) (sectorList p) 0 hms0 (fun s _ => hs s)
      have h2dp : TwoDp ((sectorList p).foldl (fun m s => max m (sectorSum p s)) 0) :=
        twoDp_foldl_max (fun s => sectorSum p s) (sectorList p) 0 twoDp_zero
          (fun s _ => twoDp_sectorSum (fun h hm => (hw h hm).2.2) s)
      rw [round2_eq_self h2dp]
      linarith
  rw [enforcePortfolioConstraints]
  simp only []
  rw [if_neg hguard, if_neg hfeas, if_pos hchk, hded, htrim, hnorm, hbody]
  rw [if_neg (show ¬ ctx.positions < p.length by omega)]
  rfl

/-- Any sector sum is bounded by the computable folded maximum. -/
theorem sectorSum_le_fold (p : List Holding) (s : String) :
    sectorSum p s ≤ (sectorList p).foldl (fun m s => max m (sectorSum p s)) 0 := by
  by_cases hs : s ∈ sectorList p
  · exact (le_foldl_max (fun s => sectorSum p s) (sectorList p) 0).2 s hs
  · rw [sectorSum_eq_zero hs]
    exact (le_foldl_max (fun s => sectorSum p s) (sectorList p) 0).1

/-- Witness for claim C7: a valid 60/40 two-sector portfolio is returned
unchanged. -/
theorem c7_witness :
    enforcePortfolioConstraints [⟨"MSFT", 60, "Technology"⟩, ⟨"JNJ", 40, "Healthcare"⟩]
      ⟨2, 70, 70⟩ =
      { portfolio := [⟨"MSFT", 60, "Technology"⟩, ⟨"JNJ", 40, "Healthcare"⟩],
        repaired := false, fallbackReason := none, notes := [] } :=
  c7_repair_idempotent [⟨"MSFT", 60, "Technology"⟩, ⟨"JNJ", 40, "Healthcare"⟩] ⟨2, 70, 70⟩
    (by decide) (by decide) (by decide)
    (by
      intro h hm
      rcases List.mem_cons.1 hm with he | hm'
      · rw [he]
        exact ⟨by decide, by decide, ⟨6000, by decide⟩⟩
      · rcases List.mem_cons.1 hm' with he | hm''
        · rw [he]
          exact ⟨by decide, by decide, ⟨4000, by decide⟩⟩
        · exact absurd hm'' (List.not_mem_nil h))
    (fun s => le_trans (sectorSum_le_fold _ s) (by decide))
    (by decide)

theorem redistributeGoCount_spec (mp ms : ℚ) :
    ∀ (fuel : ℕ) (p : List Holding) (r : ℚ),
      (redistributeGoCount mp ms fuel p r).2 ≤ fuel ∧
      (redistributeGoCount mp ms fuel p r).1 = redistributeGo mp ms fuel p r
  | 0, _, _ => ⟨Nat.le_refl 0, rfl⟩
  | fuel + 1, p, r => by
    simp only [redistributeGoCount, redistributeGo]
    by_cases h1 : r ≤ 1 / 1000000
    · rw [if_pos h1, if_pos h1]
      exact ⟨Nat.zero_le _, by trivial⟩
    · rw [if_neg h1, if_neg h1]
      by_cases h2 : (p.map (fun h =>
          min (max 0 (mp - h.weight_pct)) (max 0 (ms - sectorSum p h.sector)))).sum
          ≤ 1 / 1000000000
      · rw [if_pos h2, if_pos h2]
        exact ⟨Nat.zero_le _, by trivial⟩
      · rw [if_neg h2, if_neg h2]
        obtain ⟨hc, he⟩ := redistributeGoCount_spec mp ms fuel
          (List.zipWith
            (fun h cap => if cap ≤ 0 then h
                          else { h with weight_pct := h.weight_pct +
                            (min r (p.map (fun h =>
                              min (max 0 (mp - h.weight_pct))
                                  (max 0 (ms - sectorSum p h.sector)))).sum) * cap /
                            (p.map (fun h =>
                              min (max 0 (mp - h.weight_pct))
                                  (max 0 (ms - sectorSum p h.sector)))).sum })
            p (p.map (fun h =>
              min (max 0 (mp - h.weight_pct)) (max 0 (ms - sectorSum p h.sector)))))
          (r - min r (p.map (fun h =>
            min (max 0 (mp - h.weight_pct)) (max 0 (ms - sectorSum p h.sector)))).sum)
        exact ⟨by omega, he⟩

theorem finalizeGoCount_spec (mp ms : ℚ) :
    ∀ (fuel : ℕ) (p : List Holding) (res : ℚ),
      (finalizeGoCount mp ms fuel p res).2 ≤ fuel ∧
      (finalizeGoCount mp ms fuel p res).1 = finalizeGo mp ms fuel p res
  | 0, _, _ => ⟨Nat.le_refl 0, rfl⟩
  | fuel + 1, p, res => by
    simp only [finalizeGoCount, finalizeGo]
    by_cases h1 : |res| < 1 / 100
    · rw [if_pos h1, if_pos h1]
      exact ⟨Nat.zero_le _, by trivial⟩
    · rw [if_neg h1, if_neg h1]
      by_cases h2 : 0 < res
      · rw [if_pos h2, if_pos h2]
        cases hfind : (List.insertionSort holdAsc p).find? (fun h =>
            decide (h.weight_pct + 1 / 100 ≤ mp) &&
            decide (sectorSum p h.sector + 1 / 100 ≤ ms)) with
        | none => simp only [hfind]; exact ⟨Nat.zero_le _, by trivial⟩
        | some c =>
          simp only [hfind]
          obtain ⟨hc, he⟩ := finalizeGoCount_spec mp ms fuel
            (setWeightFirst p c.ticker (round2 (c.weight_pct + 1 / 100)))
            (round2 (res - 1 / 100))
          exact ⟨by omega, he⟩
      · rw [if_neg h2, if_neg h2]
        cases hfind : (List.insertionSort holdDesc p).find? (fun h =>
            decide (1 / 100 ≤ h.weight_pct)) with
        | none => simp only [hfind]; exact ⟨Nat.zero_le _, by trivial⟩
        | some c =>
          simp only [hfind]
          obtain ⟨hc, he⟩ := finalizeGoCount_spec mp ms fuel
            (setWeightFirst p c.ticker (round2 (c.weight_pct - 1 / 100)))
            (round2 (res + 1 / 100))
          exact ⟨by omega, he⟩

/-- Claim C9, confirmed.  Both bounded loops of the repair engine execute at
most their fixed budgets — 80 rounds for `redistributeWithinCaps` (whose
loop guard carries the 1e-6 tolerance) and 500 iterations for the
reconciliation loop of `finalizeRoundedWeights` — and the instrumented
variants compute exactly the same results, so repair terminates on every
input. -/
theorem c9_loop_iteration_bounds :
    (∀ (p : List Holding) (amount mp ms : ℚ),
      (redistributeGoCount mp ms 80 p amount).2 ≤ 80 ∧
      (redistributeGoCount mp ms 80 p amount).1 = redistributeWithinCaps p amount mp ms) ∧
    (∀ (p : List Holding) (res mp ms : ℚ),
      (finalizeGoCount mp ms 500 p res).2 ≤ 500 ∧
      (finalizeGoCount mp ms 500 p res).1 = finalizeGo mp ms 500 p res) :=
  ⟨fun p amount mp ms => redistributeGoCount_spec mp ms 80 p amount,
   fun p res mp ms => finalizeGoCount_spec mp ms 500 p res⟩

/-- Claim C5, confirmed.  The benchmark availability flag can only turn
off: a true flag after a segment requires a true flag before it together
with successful benchmark resolution at both aligned dates; a false flag
persists through every later segment of the loop; and a final state with
the flag off reports `benchmark_return_pct = null` and
`excess_return_pct = null`. -/
theorem c5_benchmark_permanently_unavailable :
    (∀ (benchChart : Option Chart) (ok : Bool) (nav : ℚ) (alignedStart alignedEnd : String),
      (benchUpdate benchChart ok nav alignedStart alignedEnd).1 = true →
        ok = true ∧ closeOnOrBefore benchChart alignedStart ≠ none ∧
        closeOnOrBefore benchChart alignedEnd ≠ none) ∧
    (∀ (chartFor : String → Option Chart) (benchChart : Option Chart) (st : NavState)
        (sd : String) (seg : Segment) (stNext : NavState),
      dailySegStep chartFor benchChart st sd seg = some stNext →
      st.benchOk = false → stNext.benchOk = false) ∧
    (∀ (chartFor : String → Option Chart) (benchChart : Option Chart) (st : NavState)
        (segs : List (String × Segment)) (stFinal : NavState),
      dailyRunSegs chartFor benchChart st segs = some stFinal →
      st.benchOk = false → stFinal.benchOk = false) ∧
    (∀ st : NavState, st.benchOk = false →
      (dailyPerfOf st).benchmark_return_pct = none ∧
      (dailyPerfOf st).excess_return_pct = none) := by
  have hupd : ∀ (benchChart : Option Chart) (ok : Bool) (nav : ℚ) (a e : String),
      (benchUpdate benchChart ok nav a e).1 = true →
        ok = true ∧ closeOnOrBefore benchChart a ≠ none ∧
        closeOnOrBefore benchChart e ≠ none := by
    intro bc ok nav a e h
    rw [benchUpdate] at h
    by_cases hok : ok = true
    · rw [if_pos hok] at h
      cases hs : closeOnOrBefore bc a with
      | none => simp [hs] at h
      | some s0 =>
        cases he : closeOnOrBefore bc e with
        | none => simp [hs, he] at h
        | some e0 => exact ⟨hok, by simp [hs], by simp [he]⟩
    · rw [if_neg hok] at h
      simp at h
  have hstep : ∀ (chartFor : String → Option Chart) (benchChart : Option Chart) (st : NavState)
      (sd : String) (seg : Segment) (stNext : NavState),
      dailySegStep chartFor benchChart st sd seg = some stNext →
      st.benchOk = false → stNext.benchOk = false := by
    intro cf bc st sd seg stNext hs hfalse
    rw [dailySegStep] at hs
    cases hleg : (dailySegData cf bc st sd seg).1 with
    | nil => simp [hleg] at hs
    | cons x xs =>
      simp only [hleg] at hs
      by_cases hcov : (legAggregate (x :: xs) (dailySegData cf bc st sd seg).2.1
          (dailySegData cf bc st sd seg).2.2).1 ≤ 0
      · rw [if_pos hcov] at hs
        exact absurd hs (by simp)
      · rw [if_neg hcov] at hs
        have := Option.some.inj hs
        rw [← this]
        simp [benchUpdate, hfalse]
  refine ⟨hupd, hstep, ?_, ?_⟩
  · intro cf bc st segs
    induction segs generalizing st with
    | nil =>
      intro stFinal h hfalse
      rw [dailyRunSegs] at h
      rw [← Option.some.inj h]
      exact hfalse
    | cons hd tl ih =>
      intro stFinal h hfalse
      rw [dailyRunSegs] at h
      cases hs : dailySegStep cf bc st hd.1 hd.2 with
      | none =>
        rw [hs] at h
        exact absurd h (by simp)
      | some st1 =>
        rw [hs] at h
        exact ih st1 stFinal h (hstep cf bc st hd.1 hd.2 st1 hs hfalse)
  · intro st hfalse
    rw [dailyPerfOf]
    simp only [hfalse]
    exact ⟨by simp, by simp⟩

/-- Witness for claim C5: a loop over no segments keeps the flag off, and
the projection of a flag-off state reports null benchmark and excess
returns. -/
theorem c5_witness :
    (dailyPerfOf (initialNavState "")).benchmark_return_pct = none ∧
    (dailyPerfOf (initialNavState "")).excess_return_pct = none := by
  have h0 : (initialNavState "").benchOk = false := by decide
  have hloop := c5_benchmark_permanently_unavailable.2.2.1 (fun _ => none) none
    (initialNavState "") [] (initialNavState "") rfl h0
  exact c5_benchmark_permanently_unavailable.2.2.2 (initialNavState "") hloop

theorem dailyRunSegs_append (chartFor : String → Option Chart) (benchChart : Option Chart) :
    ∀ (l1 l2 : List (String × Segment)) (st : NavState),
      dailyRunSegs chartFor benchChart st (l1 ++ l2) =
        (dailyRunSegs chartFor benchChart st l1).bind
          (fun st1 => dailyRunSegs chartFor benchChart st1 l2)
  | [], _, _ => rfl
  | (sd, seg) :: tl, l2, st => by
    rw [List.cons_append, dailyRunSegs, dailyRunSegs]
    cases hs : dailySegStep chartFor benchChart st sd seg with
    | none => rfl
    | some st1 => exact dailyRunSegs_append chartFor benchChart tl l2 st1

theorem dailySegStep_none_of_covered_le (chartFor : String → Option Chart)
    (benchChart : Option Chart) (st : NavState) (sd : String) (seg : Segment)
    (h : dailyCovered chartFor benchChart st sd seg ≤ 0) :
    dailySegStep chartFor benchChart st sd seg = none := by
  rw [dailyCovered] at h
  rw [dailySegStep]
  cases hleg : (dailySegData chartFor benchChart st sd seg).1 with
  | nil => simp [hleg]
  | cons x xs =>
    simp only [hleg, List.isEmpty_cons, Bool.false_eq_true, if_false] at h ⊢
    rw [if_pos h]

theorem dailySegStep_some_of_covered_pos (chartFor : String → Option Chart)
    (benchChart : Option Chart) (st : NavState) (sd : String) (seg : Segment)
    (h : 0 < dailyCovered chartFor benchChart st sd seg) :
    ∃ stNext, dailySegStep chartFor benchChart st sd seg = some stNext ∧
      stNext.nav = st.nav * (1 + (dailyWeighted chartFor benchChart st sd seg /
        dailyCovered chartFor benchChart st sd seg) / 100) := by
  rw [dailyCovered] at h ⊢
  rw [dailySegStep, dailyWeighted]
  cases hleg : (dailySegData chartFor benchChart st sd seg).1 with
  | nil =>
    rw [hleg] at h
    simp at h
  | cons x xs =>
    simp only [hleg, List.isEmpty_cons, Bool.false_eq_true, if_false] at h ⊢
    rw [if_neg (not_le.2 h)]
    exact ⟨_, rfl, rfl⟩

/-- Claim C4, confirmed.  In the `computeFundDaily` segment loop, a segment
whose covered weight is not positive makes the whole computation fail (the
date is skipped with no partial output), and a segment with positive
coverage multiplies the NAV by `1 + (weighted_return / covered_weight) /
100` — the weight-averaged return over the covered holdings only.  The
per-date computation either returns nothing or the projection of a fully
successful loop, never a partial number. -/
theorem c4_zero_coverage_aborts :
    (∀ (chartFor : String → Option Chart) (benchChart : Option Chart) (st0 : NavState)
       (pre : List (String × Segment)) (st1 : NavState) (sd : String) (seg : Segment)
       (rest : List (String × Segment)),
      dailyRunSegs chartFor benchChart st0 pre = some st1 →
      (dailyCovered chartFor benchChart st1 sd seg ≤ 0 →
        dailyRunSegs chartFor benchChart st0 (pre ++ (sd, seg) :: rest) = none) ∧
      (0 < dailyCovered chartFor benchChart st1 sd seg →
        ∃ st2, dailySegStep chartFor benchChart st1 sd seg = some st2 ∧
          st2.nav = st1.nav * (1 + (dailyWeighted chartFor benchChart st1 sd seg /
            dailyCovered chartFor benchChart st1 sd seg) / 100) ∧
          dailyRunSegs chartFor benchChart st0 (pre ++ (sd, seg) :: rest) =
            dailyRunSegs chartFor benchChart st2 rest)) ∧
    (∀ (runs : List Snapshot) (chartFor : String → Option Chart) (bt rd : String),
      computeFundDailyOne runs chartFor bt rd = none ∨
      ∃ st, dailyRunSegs chartFor (if bt ≠ "" then chartFor bt else none)
          (initialNavState bt)
          (dailySegList (buildSegments (runs.filter (fun r => strLe r.date rd)) rd))
          = some st ∧
        computeFundDailyOne runs chartFor bt rd = some (dailyPerfOf st)) := by
  constructor
  · intro cf bc st0 pre st1 sd seg rest hpre
    constructor
    · intro hcov
      rw [dailyRunSegs_append, hpre]
      show dailyRunSegs cf bc st1 ((sd, seg) :: rest) = none
      rw [dailyRunSegs, dailySegStep_none_of_covered_le cf bc st1 sd seg hcov]
    · intro hcov
      obtain ⟨st2, hstep, hnav⟩ := dailySegStep_some_of_covered_pos cf bc st1 sd seg hcov
      refine ⟨st2, hstep, hnav, ?_⟩
      rw [dailyRunSegs_append, hpre]
      show dailyRunSegs cf bc st1 ((sd, seg) :: rest) = _
      rw [dailyRunSegs, hstep]
  · intro runs cf bt rd
    cases runs with
    | nil => left; rfl
    | cons r0 rtail =>
      rw [computeFundDailyOne]
      by_cases h1 : strLt rd r0.date = true
      · left
        rw [if_pos h1]
      · rw [if_neg h1]
        by_cases h2 : ((r0 :: rtail).filter (fun r => strLe r.date rd)).isEmpty = true
        · left
          rw [if_pos h2]
        · rw [if_neg h2]
          cases hrun : dailyRunSegs cf (if bt ≠ "" then cf bt else none)
              (initialNavState bt)
              (dailySegList (buildSegments
                ((r0 :: rtail).filter (fun r => strLe r.date rd)) rd)) with
          | none =>
            left
            show Option.map dailyPerfOf (dailyRunSegs cf (if bt ≠ "" then cf bt else none)
              (initialNavState bt) (dailySegList (buildSegments
                ((r0 :: rtail).filter (fun r => strLe r.date rd)) rd))) = none
            rw [hrun]
            rfl
          | some st =>
            right
            refine ⟨st, rfl, ?_⟩
            show Option.map dailyPerfOf (dailyRunSegs cf (if bt ≠ "" then cf bt else none)
              (initialNavState bt) (dailySegList (buildSegments
                ((r0 :: rtail).filter (fun r => strLe r.date rd)) rd))) = some (dailyPerfOf st)
            rw [hrun]
            rfl

/-- Witness for claim C4: with no chart data every segment has zero
coverage and the loop returns nothing; with the fixture chart the single
segment has coverage 100 and the step succeeds. -/
theorem c4_witness :
    dailyRunSegs (fun _ => none) none (initialNavState "")
      ([] ++ ("2026-01-04", ⟨snapW, "2026-01-05"⟩) :: []) = none ∧
    (∃ st2, dailySegStep chartForW none (initialNavState "") "2026-01-04"
        ⟨snapW, "2026-01-05"⟩ = some st2 ∧
      st2.nav = (initialNavState "").nav * (1 +
        (dailyWeighted chartForW none (initialNavState "") "2026-01-04" ⟨snapW, "2026-01-05"⟩ /
         dailyCovered chartForW none (initialNavState "") "2026-01-04" ⟨snapW, "2026-01-05"⟩)
        / 100) ∧
      dailyRunSegs chartForW none (initialNavState "")
          ([] ++ ("2026-01-04", ⟨snapW, "2026-01-05"⟩) :: []) =
        dailyRunSegs chartForW none st2 []) := by
  constructor
  · exact ((c4_zero_coverage_aborts.1 (fun _ => none) none (initialNavState "") []
      (initialNavState "") "2026-01-04" ⟨snapW, "2026-01-05"⟩ [] rfl).1 (by decide))
  · exact ((c4_zero_coverage_aborts.1 chartForW none (initialNavState "") []
      (initialNavState "") "2026-01-04" ⟨snapW, "2026-01-05"⟩ [] rfl).2 (by decide))

/-- Claim C2, amended.  In `computeFundDaily` (compute_daily_nav.mjs) the
first segment's start boundary is the calendar day immediately before the
first snapshot's date, and a single-snapshot fund evaluated on its own
snapshot date produces exactly one segment from the day before that date to
that date.  In the since-added script, however, every segment — including
the first — resolves its start price at the snapshot's own date, not the
day before (see the counterexample). -/
theorem c2_first_segment_boundary :
    (∀ (r0 : Snapshot) (rest : List Snapshot) (runDate : String),
      ∃ seg tail, buildSegments (r0 :: rest) runDate = seg :: tail ∧ seg.start = r0 ∧
        dailySegList (seg :: tail) =
          (dayBefore r0.date, seg) :: tail.map (fun s => (s.start.date, s))) ∧
    (∀ r : Snapshot, buildSegments [r] r.date = [⟨r, r.date⟩] ∧
      dailySegList [⟨r, r.date⟩] = [(dayBefore r.date, ⟨r, r.date⟩)]) := by
  constructor
  · intro r0 rest runDate
    cases rest with
    | nil =>
      rw [buildSegments]
      simp only [List.getLast?_singleton]
      by_cases hlt : strLt r0.date runDate = true
      · rw [if_pos hlt]
        exact ⟨⟨r0, runDate⟩, [], rfl, rfl, rfl⟩
      · rw [if_neg hlt]
        rw [if_pos (by rfl)]
        exact ⟨⟨r0, runDate⟩, [], rfl, rfl, rfl⟩
    | cons b t =>
      rw [buildSegments]
      cases hlast : (r0 :: b :: t).getLast? with
      | none =>
        exfalso
        rw [List.getLast?_eq_none_iff] at hlast
        exact absurd hlast (by simp)
      | some last =>
        simp only []
        by_cases hlt : strLt last.date runDate = true
        · rw [if_pos hlt]
          refine ⟨⟨r0, b.date⟩, consecSegments (b :: t) ++ [⟨last, runDate⟩], ?_, rfl, rfl⟩
          rw [consecSegments]
          rfl
        · rw [if_neg hlt]
          rw [if_neg (by rw [consecSegments]; simp)]
          exact ⟨⟨r0, b.date⟩, consecSegments (b :: t), rfl, rfl, rfl⟩
  · intro r
    constructor
    · rw [buildSegments]
      simp only [List.getLast?_singleton]
      rw [if_neg (by rw [strLt_irrefl]; simp)]
      rw [if_pos (by rfl)]
      rfl
    · rfl

/-- Claim C2, counterexample to the claim as stated.  The since-added NAV
script resolves the first segment's start price at the snapshot's own date
("2026-01-05"), not the day before ("2026-01-04"): on the fixture chart the
two targets resolve to materially different price points. -/
theorem c2_counterexample :
    sinceAddedSegList (buildSegments [snapW] "2026-01-05") =
      [("2026-01-05", ⟨snapW, "2026-01-05"⟩)] ∧
    dayBefore "2026-01-05" = "2026-01-04" ∧
    ("2026-01-05" : String) ≠ "2026-01-04" ∧
    (sinceAddedLeg chartForW ⟨snapW, "2026-01-05"⟩).map (·.startCandidate) =
      [⟨"2026-01-05", 20⟩] ∧
    closeOnOrBefore (some chartW) "2026-01-04" = some ⟨"2026-01-02", 10⟩ :=
  ⟨by decide, by decide, by decide, by decide, by decide⟩

theorem sorted_strLe_getD {l : List String}
    (hs : List.Pairwise (fun a b => strLe a b = true) l)
    {i j : ℕ} (hij : i ≤ j) (hj : j < l.length) :
    strLe (l.getD i "") (l.getD j "") = true := by
  rcases eq_or_lt_of_le hij with rfl | hlt
  · exact strLe_refl _
  · have hi : i < l.length := lt_trans hlt hj
    have := List.pairwise_iff_get.1 hs ⟨i, hi⟩ ⟨j, hj⟩ hlt
    rwa [List.getD_eq_get l "" hi, List.getD_eq_get l "" hj]

theorem upperBoundGo_spec (l : List String) (t : String)
    (hs : List.Pairwise (fun a b => strLe a b = true) l) :
    ∀ (fuel lo hi : ℕ), lo ≤ hi → hi ≤ l.length → hi - lo ≤ fuel →
      (∀ i, i < lo → strLe (l.getD i "") t = true) →
      (∀ i, hi ≤ i → i < l.length → strLe (l.getD i "") t = false) →
      lo ≤ upperBoundGo l t fuel lo hi ∧ upperBoundGo l t fuel lo hi ≤ hi ∧
      (∀ i, i < upperBoundGo l t fuel lo hi → strLe (l.getD i "") t = true) ∧
      (∀ i, upperBoundGo l t fuel lo hi ≤ i → i < l.length → strLe (l.getD i "") t = false)
  | 0, lo, hi, hlohi, hhil, hfuel, hinv1, hinv2 => by
    rw [upperBoundGo]
    exact ⟨le_refl lo, hlohi, hinv1, fun i h1 h2 => hinv2 i (by omega) h2⟩
  | fuel + 1, lo, hi, hlohi, hhil, hfuel, hinv1, hinv2 => by
    rw [upperBoundGo]
    by_cases hlh : lo < hi
    · rw [if_pos hlh]
      have hmidlt : (lo + hi) / 2 < hi := by omega
      have hmidge : lo ≤ (lo + hi) / 2 := by omega
      by_cases hcmp : strLe (l.getD ((lo + hi) / 2) "") t = true
      · rw [if_pos hcmp]
        obtain ⟨h1, h2, h3, h4⟩ := upperBoundGo_spec l t hs fuel ((lo + hi) / 2 + 1) hi
          (by omega) hhil (by omega)
          (fun i hi' => strLe_trans
            (sorted_strLe_getD hs (by omega) (lt_of_lt_of_le hmidlt hhil)) hcmp)
          hinv2
        exact ⟨by omega, h2, h3, h4⟩
      · rw [if_neg hcmp]
        have hinv2' : ∀ i, (lo + hi) / 2 ≤ i → i < l.length →
            strLe (l.getD i "") t = false := by
          intro i hmi hil
          rcases Bool.eq_false_or_eq_true (strLe (l.getD i "") t) with h' | h'
          · exact absurd (strLe_trans (sorted_strLe_getD hs hmi hil) h') hcmp
          · exact h'
        obtain ⟨h1, h2, h3, h4⟩ := upperBoundGo_spec l t hs fuel lo ((lo + hi) / 2)
          hmidge (by omega) (by omega) hinv1 hinv2'
        exact ⟨h1, by omega, h3, h4⟩
    · rw [if_neg hlh]
      exact ⟨le_refl lo, hlohi, hinv1, fun i h1 h2 => hinv2 i (by omega) h2⟩

theorem upperBound_spec (l : List String) (t : String)
    (hs : List.Pairwise (fun a b => strLe a b = true) l) :
    upperBound l t ≤ l.length ∧
    (∀ i, i < upperBound l t → strLe (l.getD i "") t = true) ∧
    (∀ i, upperBound l t ≤ i → i < l.length → strLe (l.getD i "") t = false) := by
  obtain ⟨h1, h2, h3, h4⟩ := upperBoundGo_spec l t hs l.length 0 l.length
    (Nat.zero_le _) (le_refl _) (by omega)
    (fun i hi => absurd hi (by omega))
    (fun i hi1 hi2 => absurd (lt_of_le_of_lt hi1 hi2) (lt_irrefl _))
  exact ⟨h2, h3, h4⟩

/-- Claim C8, confirmed.  On a chart whose dates are sorted ascending, with
the positive-close invariant established by the fetch (and at least as many
closes as dates), the binary-search resolver returns the price point with
the latest date on or before the target — its close positive, its date
dominating every other date on or before the target — and returns nothing
exactly when the series is empty or every date lies after the target. -/
theorem c8_close_on_or_before (c : Chart) (target : String)
    (hs : List.Pairwise (fun a b => strLe a b = true) c.dates)
    (hlen : c.dates.length ≤ c.closes.length)
    (hpos : ∀ x ∈ c.closes, 0 < x) :
    (∀ p : PricePoint, closeOnOrBefore (some c) target = some p →
      p.date ∈ c.dates ∧ strLe p.date target = true ∧ 0 < p.close ∧
      ∀ d ∈ c.dates, strLe d target = true → strLe d p.date = true) ∧
    (closeOnOrBefore (some c) target = none ↔
      ∀ d ∈ c.dates, strLe d target = false) := by
  obtain ⟨hub_le, hub1, hub2⟩ := upperBound_spec c.dates target hs
  constructor
  · intro p hp
    rw [closeOnOrBefore] at hp
    by_cases h0 : c.dates.length = 0
    · rw [if_pos h0] at hp
      exact absurd hp (by simp)
    · rw [if_neg h0] at hp
      by_cases hk : upperBound c.dates target = 0
      · rw [if_pos hk] at hp
        exact absurd hp (by simp)
      · rw [if_neg hk] at hp
        have hkd : upperBound c.dates target - 1 < c.dates.length := by omega
        by_cases hcl : 0 < c.closes.getD (upperBound c.dates target - 1) 0
        · rw [if_pos hcl] at hp
          have hp' := Option.some.inj hp
          rw [← hp']
          refine ⟨?_, ?_, hcl, ?_⟩
          · rw [List.getD_eq_get c.dates "" hkd]
            exact List.get_mem _ _ _
          · exact hub1 _ (by omega)
          · intro d hd hdle
            obtain ⟨⟨i, hi⟩, hdi⟩ := List.mem_iff_get.1 hd
            by_cases hik : upperBound c.dates target ≤ i
            · exfalso
              have := hub2 i hik hi
              rw [← hdi] at hdle
              rw [List.getD_eq_get c.dates "" hi] at this
              rw [this] at hdle
              exact absurd hdle (by simp)
            · have hile : i ≤ upperBound c.dates target - 1 := by omega
              have := sorted_strLe_getD hs hile hkd
              rw [List.getD_eq_get c.dates "" hi] at this
              rw [← hdi]
              exact this
        · rw [if_neg hcl] at hp
          exact absurd hp (by simp)
  · constructor
    · intro hnone d hd
      rw [closeOnOrBefore] at hnone
      by_cases h0 : c.dates.length = 0
      · rw [List.length_eq_zero] at h0
        rw [h0] at hd
        exact absurd hd (List.not_mem_nil d)
      · rw [if_neg h0] at hnone
        by_cases hk : upperBound c.dates target = 0
        · obtain ⟨⟨i, hi⟩, hdi⟩ := List.mem_iff_get.1 hd
          have := hub2 i (by omega) hi
          rw [List.getD_eq_get c.dates "" hi] at this
          rw [← hdi]
          exact this
        · rw [if_neg hk] at hnone
          by_cases hcl : 0 < c.closes.getD (upperBound c.dates target - 1) 0
          · rw [if_pos hcl] at hnone
            exact absurd hnone (by simp)
          · exfalso
            have hkd : upperBound c.dates target - 1 < c.closes.length := by omega
            have hmem : c.closes.getD (upperBound c.dates target - 1) 0 ∈ c.closes := by
              rw [List.getD_eq_get c.closes 0 hkd]
              exact List.get_mem _ _ _
            exact hcl (hpos _ hmem)
    · intro hall
      rw [closeOnOrBefore]
      by_cases h0 : c.dates.length = 0
      · rw [if_pos h0]
      · rw [if_neg h0]
        have hk : upperBound c.dates target = 0 := by
          by_contra hk
          have hkd : upperBound c.dates target - 1 < c.dates.length := by omega
          have hmem : c.dates.getD (upperBound c.dates target - 1) "" ∈ c.dates := by
            rw [List.getD_eq_get c.dates "" hkd]
            exact List.get_mem _ _ _
          have htrue := hub1 (upperBound c.dates target - 1) (by omega)
          rw [hall _ hmem] at htrue
          exact absurd htrue (by simp)
        rw [if_pos hk]

/-- Witness for claim C8: on the sorted two-point fixture chart, resolving
at a mid-window target returns the earlier point. -/
theorem c8_witness :
    (⟨"2026-01-02", 10⟩ : PricePoint).date ∈ chartW.dates ∧
    strLe "2026-01-02" "2026-01-03" = true ∧ (0 : ℚ) < 10 := by
  have h := (c8_close_on_or_before chartW "2026-01-03" (by decide) (by decide)
    (by decide)).1 ⟨"2026-01-02", 10⟩ (by decide)
  exact ⟨h.1, h.2.1, h.2.2.1⟩

theorem getD_set_ne (d : Holding) :
    ∀ (l : List Holding) (a i : ℕ) (h : Holding), i ≠ a →
      (l.set a h).getD i d = l.getD i d
  | [], _, _, _, _ => rfl
  | x :: xs, 0, 0, h, hne => absurd rfl hne
  | x :: xs, 0, i + 1, h, _ => rfl
  | x :: xs, a + 1, 0, h, _ => rfl
  | x :: xs, a + 1, i + 1, h, hne =>
    getD_set_ne d xs a i h (by omega)

theorem readH_append {σ : Store} (l : List Holding) {i : ℕ} (hi : i < σ.length) :
    readH (σ ++ l) i = readH σ i := by
  rw [readH, readH, List.getD_append _ _ _ _ hi]

theorem readH_write_ne {σ : Store} {a i : ℕ} (h : Holding) (hne : i ≠ a) :
    readH (writeH σ a h) i = readH σ i :=
  getD_set_ne _ σ a i h hne

theorem copyAll_preserves (n : ℕ) :
    ∀ (addrs : List ℕ) (σ : Store), n ≤ σ.length →
      StorePreservesBelow n σ (copyAll σ addrs).1
  | [], σ, hn => ⟨hn, fun _ _ => rfl⟩
  | a :: rest, σ, hn => by
    rw [copyAll]
    simp only [allocH]
    obtain ⟨h1, h2⟩ := copyAll_preserves n rest (σ ++ [readH σ a])
      (by rw [List.length_append]; omega)
    refine ⟨h1, fun i hi => ?_⟩
    rw [h2 i hi]
    exact readH_append _ (by omega)

theorem dedupeStore_preserves (n : ℕ) :
    ∀ (rest : List ℕ) (σ : Store) (assoc : List (String × ℕ)),
      n ≤ σ.length → (∀ e ∈ assoc, n ≤ e.2) →
      StorePreservesBelow n σ (dedupeStore σ assoc rest).1 ∧
      (∀ e ∈ (dedupeStore σ assoc rest).2, n ≤ e.2)
  | [], σ, assoc, hn, ha => ⟨⟨hn, fun _ _ => rfl⟩, ha⟩
  | a :: rest, σ, assoc, hn, ha => by
    rw [dedupeStore]
    cases hl : assoc.lookup (readH σ a).ticker with
    | none =>
      simp only [hl, allocH]
      obtain ⟨⟨h1, h2⟩, h3⟩ := dedupeStore_preserves n rest (σ ++ [readH σ a])
        (assoc ++ [((readH σ a).ticker, σ.length)])
        (by rw [List.length_append]; omega)
        (by
          intro e he
          rcases List.mem_append.1 he with he | he
          · exact ha e he
          · have : e = ((readH σ a).ticker, σ.length) := by simpa using he
            rw [this]
            show n ≤ σ.length
            omega)
      refine ⟨⟨h1, fun i hi => ?_⟩, h3⟩
      rw [h2 i hi]
      exact readH_append _ (by omega)
    | some e =>
      simp only [hl]
      have hea : n ≤ e := by
        have hmem : ((readH σ a).ticker, e) ∈ assoc := by
          obtain ⟨l1, l2, heq, _⟩ := List.lookup_eq_some_iff.1 hl
          rw [heq]
          simp
        exact ha _ hmem
      obtain ⟨⟨h1, h2⟩, h3⟩ := dedupeStore_preserves n rest
        (writeH σ e
          { readH σ e with
              weight_pct := (readH σ e).weight_pct + (readH σ a).weight_pct,
              sector :=
                if (readH σ e).sector = "UNKNOWN" ∧ (readH σ a).sector ≠ "UNKNOWN" then
                  (readH σ a).sector
                else (readH σ e).sector })
        assoc
        (by rw [writeH, List.length_set]; omega) ha
      refine ⟨⟨h1, fun i hi => ?_⟩, h3⟩
      rw [h2 i hi]
      exact readH_write_ne _ (by omega)

theorem writeBack_preserves (n : ℕ) :
    ∀ (addrs : List ℕ) (σ : Store) (final : List Holding),
      n ≤ σ.length → (∀ a ∈ addrs, n ≤ a) →
      StorePreservesBelow n σ (writeBackByTicker σ addrs final)
  | [], σ, final, hn, _ => ⟨hn, fun _ _ => rfl⟩
  | a :: rest, σ, final, hn, ha => by
    rw [writeBackByTicker]
    cases hf : final.find? (fun f => f.ticker = (readH σ a).ticker) with
    | none =>
      simp only [hf]
      exact writeBack_preserves n rest σ final hn
        (fun x hx => ha x (List.mem_cons_of_mem a hx))
    | some f =>
      simp only [hf]
      obtain ⟨h1, h2⟩ := writeBack_preserves n rest (writeH σ a f) final
        (by rw [writeH, List.length_set]; omega)
        (fun x hx => ha x (List.mem_cons_of_mem a hx))
      refine ⟨h1, fun i hi => ?_⟩
      rw [h2 i hi]
      exact readH_write_ne _ (by
        have := ha a (List.mem_cons_self a rest)
        omega)

/-- Claim C10, confirmed.  In the heap model of `enforcePortfolioConstraints`
— where every input holding is first shallow-copied, deduplication allocates
and mutates only fresh copies, and the repaired weights are written back
only into those working copies — every address of the original store reads
the same object after the call as before it, whether the repair succeeded
or fell back, and the returned result is the pure repair of the values read
from the input addresses. -/
theorem c10_no_input_mutation (σ : Store) (inputAddrs : List ℕ) (ctx : RepairContext) :
    (∀ i, i < σ.length →
      readH (enforcePortfolioConstraintsStore σ inputAddrs ctx).1 i = readH σ i) ∧
    (enforcePortfolioConstraintsStore σ inputAddrs ctx).2 =
      enforcePortfolioConstraints (inputAddrs.map (readH σ)) ctx := by
  refine ⟨?_, rfl⟩
  intro i hi
  obtain ⟨hc1, hc2⟩ := copyAll_preserves σ.length inputAddrs σ (le_refl _)
  obtain ⟨⟨hd1, hd2⟩, hd3⟩ := dedupeStore_preserves σ.length (copyAll σ inputAddrs).2
    (copyAll σ inputAddrs).1 [] hc1 (by intro e he; exact absurd he (List.not_mem_nil e))
  obtain ⟨hw1, hw2⟩ := writeBack_preserves σ.length
    (((dedupeStore (copyAll σ inputAddrs).1 [] (copyAll σ inputAddrs).2).2).map (·.2))
    ((dedupeStore (copyAll σ inputAddrs).1 [] (copyAll σ inputAddrs).2).1)
    ((enforcePortfolioConstraints (inputAddrs.map (readH σ)) ctx).portfolio)
    hd1
    (by
      intro a ha
      obtain ⟨e, he, rfl⟩ := List.mem_map.1 ha
      exact hd3 e he)
  show readH (writeBackByTicker
    ((dedupeStore (copyAll σ inputAddrs).1 [] (copyAll σ inputAddrs).2).1)
    (((dedupeStore (copyAll σ inputAddrs).1 [] (copyAll σ inputAddrs).2).2).map (·.2))
    ((enforcePortfolioConstraints (inputAddrs.map (readH σ)) ctx).portfolio)) i = readH σ i
  rw [hw2 i hi, hd2 i hi, hc2 i hi]

/-- Witness for claim C10: a one-object store addressed by the input list is
unchanged by a store-level repair run. -/
theorem c10_witness :
    readH (enforcePortfolioConstraintsStore [⟨"MSFT", 60, "Technology"⟩] [0] ⟨2, 70, 70⟩).1 0 =
      readH [⟨"MSFT", 60, "Technology"⟩] 0 :=
  (c10_no_input_mutation [⟨"MSFT", 60, "Technology"⟩] [0] ⟨2, 70, 70⟩).1 0 (by decide)

/-- Witness for claim C1: the amended soundness disjunction at a concrete
single-holding candidate. -/
theorem c1_witness :
    (enforcePortfolioConstraints [⟨"AAPL", 50, "Technology"⟩] ⟨10, 100, 100⟩).fallbackReason =
        some FallbackReason.emptyOrInvalidPortfolio ∨
    (∃ c, (enforcePortfolioConstraints [⟨"AAPL", 50, "Technology"⟩] ⟨10, 100, 100⟩).fallbackReason =
        some (FallbackReason.infeasibleSectorCapacity c)) ∨
    (∃ mpo mso,
      (enforcePortfolioConstraints [⟨"AAPL", 50, "Technology"⟩] ⟨10, 100, 100⟩).fallbackReason =
        some (FallbackReason.postRepairConstraintsFailed mpo mso)) ∨
    ((enforcePortfolioConstraints [⟨"AAPL", 50, "Technology"⟩] ⟨10, 100, 100⟩).fallbackReason
        = none ∧
     1 ≤ (enforcePortfolioConstraints [⟨"AAPL", 50, "Technology"⟩]
        ⟨10, 100, 100⟩).portfolio.length ∧
     (enforcePortfolioConstraints [⟨"AAPL", 50, "Technology"⟩]
        ⟨10, 100, 100⟩).portfolio.length ≤ (RepairContext.mk 10 100 100).positions ∧
     (((enforcePortfolioConstraints [⟨"AAPL", 50, "Technology"⟩]
        ⟨10, 100, 100⟩).portfolio.map (·.ticker)).Nodup) ∧
     (∀ h ∈ (enforcePortfolioConstraints [⟨"AAPL", 50, "Technology"⟩] ⟨10, 100, 100⟩).portfolio,
        0 ≤ h.weight_pct ∧
        h.weight_pct ≤ (RepairContext.mk 10 100 100).maxPositionPct + 1 / 100) ∧
     (∀ s, sectorSum (enforcePortfolioConstraints [⟨"AAPL", 50, "Technology"⟩]
        ⟨10, 100, 100⟩).portfolio s ≤ (RepairContext.mk 10 100 100).maxSectorPct + 1 / 100)) :=
  c1_repair_result_soundness [⟨"AAPL", 50, "Technology"⟩] ⟨10, 100, 100⟩

/-- Witness for claim C2: the single-snapshot edge case of the amended
boundary statement at the fixture snapshot. -/
theorem c2_witness :
    buildSegments [snapW] snapW.date = [⟨snapW, snapW.date⟩] ∧
    dailySegList [⟨snapW, snapW.date⟩] = [(dayBefore snapW.date, ⟨snapW, snapW.date⟩)] :=
  c2_first_segment_boundary.2 snapW

/-- Witness for claim C9: the iteration bounds at a concrete empty
portfolio. -/
theorem c9_witness :
    (redistributeGoCount 0 0 80 [] 0).2 ≤ 80 ∧
    (redistributeGoCount 0 0 80 [] 0).1 = redistributeWithinCaps [] 0 0 0 :=
  c9_loop_iteration_bounds.1 [] 0 0 0

end HedgeLabs
